import Mathlib

/-!
Shallow embedding of the index-set algebra of `cvxpy_or/sets.py`
(`Set`, `Parameter.expand` / `Parameter.set_data`,
`_build_aggregation_matrix`, `_build_where_mask`) and proofs of the
specification claims about it.

Conventions used throughout:
* Python hashable values (strings, ints, arbitrarily nested tuples) are
  embedded as the inductive type `PyVal`.
* Python floats are modelled as the elements of an arbitrary commutative
  ring `R` (the float data of this library is only ever filled, copied,
  multiplied by 0/1 matrix entries and summed), so every theorem covers
  `ℚ`- and `ℝ`-valued data; witnesses instantiate `R := ℤ` so that they
  evaluate.
* Fallible code is translated into `Except PyError _`; the Python
  exception classes `KeyError`, `ValueError`, `IndexError`, `TypeError`
  correspond to the constructors of `PyError`.  Dynamic parts of the
  Python error message strings (names, reprs) are kept where easy and
  otherwise abbreviated; claims only distinguish errors by constructor
  and by which source `raise` produced them.
-/

deriving instance DecidableEq for Except

/-- A Python hashable value: a string, an int, or a (possibly nested) tuple. -/
inductive PyVal where
  | str : String → PyVal
  | int : Int → PyVal
  | tuple : List PyVal → PyVal

mutual

/-- Decidable equality on `PyVal` (Python `==` on hashables), by mutual
structural recursion with lists of `PyVal`. -/
def PyVal.decEq : (a b : PyVal) → Decidable (a = b)
  | .str a, .str b =>
    if h : a = b then isTrue (congrArg PyVal.str h)
    else isFalse (fun he => h (PyVal.str.inj he))
  | .str _, .int _ => isFalse (fun he => PyVal.noConfusion he)
  | .str _, .tuple _ => isFalse (fun he => PyVal.noConfusion he)
  | .int _, .str _ => isFalse (fun he => PyVal.noConfusion he)
  | .int a, .int b =>
    if h : a = b then isTrue (congrArg PyVal.int h)
    else isFalse (fun he => h (PyVal.int.inj he))
  | .int _, .tuple _ => isFalse (fun he => PyVal.noConfusion he)
  | .tuple _, .str _ => isFalse (fun he => PyVal.noConfusion he)
  | .tuple _, .int _ => isFalse (fun he => PyVal.noConfusion he)
  | .tuple a, .tuple b =>
    match PyVal.decEqList a b with
    | isTrue h => isTrue (congrArg PyVal.tuple h)
    | isFalse h => isFalse (fun he => h (PyVal.tuple.inj he))

/-- Decidable equality on lists of `PyVal`. -/
def PyVal.decEqList : (a b : List PyVal) → Decidable (a = b)
  | [], [] => isTrue rfl
  | [], _ :: _ => isFalse (fun he => List.noConfusion he)
  | _ :: _, [] => isFalse (fun he => List.noConfusion he)
  | x :: xs, y :: ys =>
    match PyVal.decEq x y, PyVal.decEqList xs ys with
    | isTrue h1, isTrue h2 => isTrue (by rw [h1, h2])
    | isFalse h1, _ => isFalse (fun he => h1 (by cases he; rfl))
    | _, isFalse h2 => isFalse (fun he => h2 (by cases he; rfl))

end

instance : DecidableEq PyVal := PyVal.decEq

/-- Python exceptions raised by the embedded code. -/
inductive PyError where
  | keyError : String → PyError
  | valueError : String → PyError
  | indexError : String → PyError
  | typeError : String → PyError
deriving DecidableEq

/-- `True` iff the value is a Python tuple (`isinstance(v, tuple)`). -/
def PyVal.isTuple : PyVal → Bool
  | .tuple _ => true
  | _ => false

/-- Normalize a Python index `i` applied to a sequence of length `n`:
nonnegative indices are used as is, negative indices count from the end,
anything out of range is `none` (an `IndexError` in Python). -/
def pyIdx (n : Nat) (i : Int) : Option Nat :=
  if 0 ≤ i then
    if i < (n : Int) then some i.toNat else none
  else
    if 0 ≤ i + (n : Int) then some (i + (n : Int)).toNat else none

/-- Python subscript `v[i]`: defined for tuples (component) and strings
(one-character string); ints are not subscriptable (`TypeError`);
out-of-range subscripts raise `IndexError`. -/
def pySubscript (v : PyVal) (i : Int) : Except PyError PyVal :=
  match v with
  | .tuple l =>
    match pyIdx l.length i with
    | some j => .ok (l.getD j (.int 0))
    | none => .error (.indexError "tuple index out of range")
  | .str s =>
    match pyIdx s.length i with
    | some j => .ok (.str (String.mk [s.toList.getD j ' ']))
    | none => .error (.indexError "string index out of range")
  | .int _ => .error (.typeError "int object is not subscriptable")

/-- Index of the LAST occurrence of `e` in `l`, if any.  This is the
lookup semantics of the dict comprehension
`self._pos = \x7be: i for i, e in enumerate(self._elements)\x7d`:
a later duplicate silently overwrites the position of an earlier one. -/
def lastIndexOf (l : List PyVal) (e : PyVal) : Option Nat :=
  match l with
  | [] => none
  | x :: xs =>
    match lastIndexOf xs e with
    | some j => some (j + 1)
    | none => if x = e then some 0 else none

/-- Embedding of the class `Set` of `cvxpy_or/sets.py`: the stored fields
`_elements`, `_name`, `_names`.  The derived dict `_pos` is recomputed by
`lastIndexOf` and the flag `_is_compound` by `PySet._is_compound` (both are
pure functions of `_elements`, which is immutable after construction). -/
structure PySet where
  _elements : List PyVal
  _name : String
  _names : Option (List String)
deriving DecidableEq

/-- Python `name or default` for an optional string: `None` and the empty
string are falsy, any other string is returned unchanged. -/
def pyOrName : Option String → String → String
  | some s, d => if s = "" then d else s
  | none, d => d

/-- `len(self._elements) > 0 and isinstance(self._elements[0], tuple)`. -/
def isCompoundOf : List PyVal → Bool
  | [] => false
  | e :: _ => e.isTuple

/-- The stored `_is_compound` flag (computed once in `Set.__init__`). -/
def PySet._is_compound (s : PySet) : Bool :=
  isCompoundOf s._elements

/-- `len(s)`. -/
def PySet.size (s : PySet) : Nat := s._elements.length

/-- Embedding of `Set.__init__`.  `autoName` stands for the runtime string
`f"Set_\x7bid(self)\x7d"` used when no name is supplied (object ids are not
modelled, so the auto-generated name is passed in explicitly).
`names` is normalized by Python truthiness (`tuple(names) if names else
None`, so an empty sequence becomes `None`), and the arity validation runs
only when the resulting `_names` is set AND the index is compound; the
arity is `len(self._elements[0])`. -/
def normNames : Option (List String) → Option (List String)
  | some l => if l = [] then none else some l
  | none => none

/-- The arity validation of `Set.__init__`: only when `_names` is set and
the index is compound (first element a tuple), `len(names)` must equal
`len(self._elements[0])`. -/
def namesArityOk : Option (List String) → List PyVal → Bool
  | some ns, PyVal.tuple comps :: _ => ns.length == comps.length
  | _, _ => true

def mkSet (elements : List PyVal) (name : Option String) (autoName : String)
    (names : Option (List String)) : Except PyError PySet :=
  if namesArityOk (normNames names) elements
  then .ok ⟨elements, pyOrName name autoName, normNames names⟩
  else .error (.valueError "names does not match the number of index tuple positions")

/-- `elem in s` (`Set.__contains__`): membership in the `_pos` dict, i.e.
membership in the element list. -/
def PySet.contains (s : PySet) (e : PyVal) : Bool :=
  (lastIndexOf s._elements e).isSome

/-- Embedding of `Set.position`: dict lookup in `_pos`, raising `KeyError`
when the element is absent. -/
def PySet.position (s : PySet) (e : PyVal) : Except PyError Nat :=
  match lastIndexOf s._elements e with
  | some i => .ok i
  | none => .error (.keyError ("Element not in index " ++ s._name))

/-- A position reference: a Python `int` or a `str` name. -/
inductive PyKey where
  | int : Int → PyKey
  | str : String → PyKey
deriving DecidableEq

/-- Embedding of `Set._resolve_position`: an int is returned unchanged
(whatever its value); a string is looked up in `_names` (first occurrence,
`list.index`) provided `_names` is truthy and contains it, otherwise
`KeyError`. -/
def PySet.resolve_position (s : PySet) (k : PyKey) : Except PyError Int :=
  match k with
  | .int i => .ok i
  | .str nm =>
    match s._names with
    | some ns =>
      if ns ≠ [] ∧ nm ∈ ns then .ok (ns.indexOf nm : Nat)
      else .error (.keyError ("Unknown position name " ++ nm))
    | none => .error (.keyError ("Unknown position name " ++ nm))

/-- `itertools.product` over lists: all combinations in nested
lexicographic order, the first list varying slowest, the last fastest. -/
def pyProduct : List (List PyVal) → List (List PyVal)
  | [] => [[]]
  | l :: ls => l.flatMap (fun x => (pyProduct ls).map (fun xs => x :: xs))

/-- Modelled from the spec's wording of the cross-product element order:
"elements ... enumerated in nested lexicographic order — the first operand
varies slowest, the last fastest".  The element at flat position `k` is
obtained by mixed-radix decomposition of `k`, the radix of each operand
being the product of the sizes of all later operands. -/
def nestedLexElement : List (List PyVal) → Nat → List PyVal
  | [], _ => []
  | l :: ls, k =>
    let block := (ls.map List.length).prod
    l.getD (k / block) (PyVal.int 0) :: nestedLexElement ls (k % block)

/-- Embedding of `Set.cross`.  `autoName` plays the same role as in
`mkSet`.  In the source, when the caller supplies no `names`, the product
names default to `tuple(idx._name for idx in indices)` guarded by
`all(n is not None for n in source_names)`; since `Set.__init__` always
stores a non-`None` `_name` (it falls back to the id-based auto name),
that guard is identically true and the default always applies. -/
def PySet.cross (indices : List PySet) (name : Option String) (autoName : String)
    (names : Option (List String)) : Except PyError PySet :=
  if indices.length < 2 then
    .error (.valueError "cross() requires at least 2 indices")
  else
    let elements := (pyProduct (indices.map (fun idx => idx._elements))).map PyVal.tuple
    let names' : Option (List String) :=
      match names with
      | none => some (indices.map (fun idx => idx._name))
      | some ns => some ns
    mkSet elements name autoName names'

section NumericModel

variable {R : Type} [CommRing R]

/-- Embedding of the class `Parameter`: its index set and its (possibly
still unset) numeric value vector.  Floats are modelled as the elements
of an arbitrary commutative ring `R` (so the theorems cover `ℚ` and `ℝ`
valued data; witnesses instantiate `R := ℤ`). -/
structure PyParam (R : Type) where
  _set_index : PySet
  value : Option (List R)
deriving DecidableEq

/-- The loop body of `Parameter.set_data`: start from `np.zeros(len(index))`
and write each mapped value at its element's position (`values[pos] = val`),
in dict iteration (= insertion) order; a missing key raises `KeyError`
before anything is stored. -/
def set_data_values (idx : PySet) (data : List (PyVal × R)) : Except PyError (List R) :=
  data.foldlM
    (fun values kv => do
      let pos ← idx.position kv.1
      pure (values.set pos kv.2))
    (List.replicate idx._elements.length (0 : R))

/-- Embedding of `Parameter.set_data`: the local array is fully built
first and assigned to `self.value` only after the loop finishes, so an
error leaves the parameter unchanged (here: no new parameter is
produced). -/
def PyParam.set_data (p : PyParam R) (data : List (PyVal × R)) : Except PyError (PyParam R) := do
  let values ← set_data_values p._set_index data
  pure { p with value := some values }

/-- Embedding of `Parameter.__init__`: value starts unset and `set_data`
runs iff initial data is supplied. -/
def mkParameter (index : PySet) (data : Option (List (PyVal × R))) : Except PyError (PyParam R) :=
  match data with
  | none => .ok ⟨index, none⟩
  | some d => PyParam.set_data ⟨index, none⟩ d

/-- The sub-key extraction shared by `_build_aggregation_matrix.get_key`
and the loop body of `Parameter.expand`: the component at the single
retained position, or the tuple of components at several retained
positions. -/
def extractKey (pos_indices : List Int) (elem : PyVal) : Except PyError PyVal :=
  match pos_indices with
  | [p] => pySubscript elem p
  | ps => (ps.mapM (fun p => pySubscript elem p)).map PyVal.tuple

/-- Embedding of `Parameter.expand`. -/
def PyParam.expand (p : PyParam R) (target : PySet) (positions : List PyKey) :
    Except PyError (PyParam R) := do
  if target._is_compound = false then
    throw (.valueError "Target index must be a compound (cross-product) index")
  let pos_indices ← positions.mapM (fun k => target.resolve_position k)
  let result_values ← target._elements.mapM (fun elem => do
    let key ← extractKey pos_indices elem
    let src_pos ← p._set_index.position key
    match p.value with
    | some v =>
      match v.get? src_pos with
      | some x => pure x
      | none => throw (.indexError "index out of bounds for parameter value")
    | none => throw (.typeError "parameter value is not set"))
  pure ⟨target, some result_values⟩

/-- The `group_keys` loop of `_build_aggregation_matrix`: unique keys in
order of first occurrence.  The source keeps a `seen` set alongside the
list; since `seen` always holds exactly the members of `group_keys`, the
`key not in seen` test is membership in the accumulated list. -/
def dedupFirst (l : List PyVal) : List PyVal :=
  l.foldl (fun acc k => if k ∈ acc then acc else acc ++ [k]) []

/-- The dict `key_to_row = \x7bk: i for i, k in enumerate(group_keys)\x7d`
(last occurrence wins, but `group_keys` is duplicate-free).  The lookup
`key_to_row[key]` in the source is only ever made for keys present in
`group_keys`, so the `getD 0` default is never used. -/
def keyToRow (group_keys : List PyVal) (k : PyVal) : Nat :=
  (lastIndexOf group_keys k).getD 0

/-- The triplet loop of `_build_aggregation_matrix`: for `j, elem` in
enumeration order, append `(row of elem's key, j, 1.0)`.  `row` is applied
to the pre-extracted key of each element. -/
def aggTriplets (row : PyVal → Nat) : Nat → List PyVal → List (Nat × Nat × R)
  | _, [] => []
  | j, k :: ks => (row k, j, (1 : R)) :: aggTriplets row (j + 1) ks

/-- A scipy `csr_matrix((data, (rows, cols)), shape=(rows, cols))` built
from coordinate triplets. -/
structure SparseMat (R : Type) where
  rows : Nat
  cols : Nat
  triplets : List (Nat × Nat × R)

/-- The dense entry of a coordinate-triplet sparse matrix: scipy sums the
data of all triplets at the same coordinate. -/
def csrEntry (ts : List (Nat × Nat × R)) (g e : Nat) : R :=
  ((ts.filter (fun t => t.1 == g && t.2.1 == e)).map (fun t => t.2.2)).sum

/-- Embedding of `_build_aggregation_matrix`: extract every element's
retained sub-key, collect the group keys in first-occurrence order, and
emit one `(group row, column, 1.0)` triplet per element. -/
def build_aggregation_matrix (index : PySet) (pos_indices : List Int) :
    Except PyError (SparseMat R) := do
  let ks ← index._elements.mapM (extractKey pos_indices)
  let group_keys := dedupFirst ks
  pure ⟨group_keys.length, index._elements.length, aggTriplets (keyToRow group_keys) 0 ks⟩

/-- One entry of the matrix–vector product `M @ v`. -/
def matVecEntry (M : Nat → Nat → R) (nE : Nat) (v : Nat → R) (g : Nat) : R :=
  ((List.range nE).map (fun e => M g e * v e)).sum

/-- The matrix–vector product `M @ v` of a sparse matrix with a dense
vector, as a dense result vector of length `M.rows`. -/
def matVec (m : SparseMat R) (v : Nat → R) : List R :=
  (List.range m.rows).map (matVecEntry (csrEntry m.triplets) m.cols v)

/-- Embedding of `sum_by` applied to a concrete numeric vector: the
compoundness guard, position resolution, aggregation-matrix construction
and the product `agg_matrix @ expr`. -/
def sum_by (v : Nat → R) (positions : List PyKey) (index : PySet) :
    Except PyError (List R) := do
  if index._is_compound = false then
    throw (.valueError ("sum_by() requires a compound index (tuples). Set "
      ++ index._name ++ " contains simple elements."))
  let pos_indices ← positions.mapM (fun p => index.resolve_position p)
  let m ← build_aggregation_matrix index pos_indices
  pure (matVec m v)

/-- The `cond` argument of `where`: an explicit numeric array or a
predicate callable over index elements. -/
inductive WhereCond (R : Type) where
  | arr : List R → WhereCond R
  | func : (PyVal → Bool) → WhereCond R

/-- A keyword-filter value: a single allowed value, or a Python
list/tuple/set of allowed values (`isinstance(allowed, (list, tuple, set))`
distinguishes the two in the source). -/
inductive PyObj where
  | scalar : PyVal → PyObj
  | coll : List PyVal → PyObj
deriving DecidableEq

/-- The allowed-value set built from a keyword-filter value:
`\x7ballowed\x7d` for a scalar, `set(allowed)` for a collection
(membership in a list models membership in the Python set). -/
def PyObj.toAllowed : PyObj → List PyVal
  | .scalar v => [v]
  | .coll l => l

/-- One iteration of the kwargs loop of `_build_where_mask`: resolve the
named position, then zero every mask entry whose element's value at that
position is not allowed.  The per-element update walks the element list
and the mask in lockstep (the source indexes `mask[i]` with `i` from
`enumerate(index)`). -/
def applyKwFilter (index : PySet) (mask : List R) (kw : String × PyObj) :
    Except PyError (List R) := do
  let pos ← index.resolve_position (.str kw.1)
  let allowed := kw.2.toAllowed
  (index._elements.zip mask).mapM (fun em => do
    let v ← pySubscript em.1 pos
    pure (if v ∈ allowed then em.2 else 0))

/-- The callable branch of `_build_where_mask`: requires `index`, then
evaluates the predicate over every element in index order
(`np.array([...], dtype=float)` turns booleans into 1.0/0.0). -/
def whereFunc (f : PyVal → Bool) : Option PySet → Except PyError (List R)
  | none => .error (.valueError "index parameter is required when cond is a callable")
  | some idx => .ok (idx._elements.map (fun e => if f e then (1 : R) else 0))

/-- The explicit-array branch of `_build_where_mask`: with an index the
length is validated, without one the array is used as-is. -/
def whereArr (a : List R) : Option PySet → Except PyError (List R)
  | some idx =>
    if a.length ≠ idx.size then
      .error (.valueError "Condition array does not have the expected shape")
    else .ok a
  | none => .ok a

/-- The inner kwargs loop of `_build_where_mask` once an index is at
hand: the compoundness guard, then the filter loop starting from
`np.ones(n)`. -/
def whereKwargsIdx (idx : PySet) (kwargs : List (String × PyObj)) :
    Except PyError (List R) :=
  if idx._is_compound = false then
    .error (.valueError ("Keyword filtering requires a compound index (tuples). Set "
      ++ idx._name ++ " contains simple elements."))
  else
    kwargs.foldlM (applyKwFilter idx) (List.replicate idx.size (1 : R))

/-- The kwargs branch of `_build_where_mask`: requires `index`. -/
def whereKwargs : Option PySet → List (String × PyObj) → Except PyError (List R)
  | none, _ => .error (.valueError "index parameter is required when using keyword filtering")
  | some idx, kwargs => whereKwargsIdx idx kwargs

/-- Embedding of `_build_where_mask`: the ambiguity check, then dispatch
on the kind of condition exactly as the source's if/elif/else ladder. -/
def build_where_mask (cond : Option (WhereCond R)) (index : Option PySet)
    (kwargs : List (String × PyObj)) : Except PyError (List R) :=
  if cond.isSome ∧ kwargs ≠ [] then
    .error (.valueError "Cannot specify both cond and keyword arguments")
  else
    match cond with
    | some (.func f) => whereFunc f index
    | some (.arr a) => whereArr a index
    | none =>
      if kwargs ≠ [] then whereKwargs index kwargs
      else .error (.valueError "Must specify either cond or keyword arguments")

end NumericModel

/-- The per-position filter test, applied after the filter's name has
resolved to `pos`: the element's value at `pos` lies in the allowed set
(`elem[pos] not in allowed` zeroes the entry); an element whose
subscript fails never passes. -/
def subPass (pos : Int) (allowed : List PyVal) (e : PyVal) : Bool :=
  match pySubscript e pos with
  | .ok w => decide (w ∈ allowed)
  | .error _ => false

/-- Modelled from the spec: "an element's mask entry is 1.0 only if, for
every named filter, the element's value at that position lies in the
allowed set".  One named filter passes for an element iff the filter's
name resolves and the element's value at the resolved position is
allowed. -/
def specKwPass (idx : PySet) (e : PyVal) (kw : String × PyObj) : Bool :=
  match idx.resolve_position (PyKey.str kw.1) with
  | .ok pos => subPass pos kw.2.toAllowed e
  | .error _ => false

/-- Concrete example set: `Set(['W1','W2'], name='warehouses')`. -/
def exWarehouses : PySet := ⟨[PyVal.str "W1", PyVal.str "W2"], "warehouses", none⟩

/-- Concrete example set: `Set(['C1','C2'], name='customers')`. -/
def exCustomers : PySet := ⟨[PyVal.str "C1", PyVal.str "C2"], "customers", none⟩

/-- Concrete example set: the cross product of `exWarehouses` and
`exCustomers` with position names `('origin','dest')`. -/
def exRoutes : PySet :=
  ⟨[PyVal.tuple [PyVal.str "W1", PyVal.str "C1"],
    PyVal.tuple [PyVal.str "W1", PyVal.str "C2"],
    PyVal.tuple [PyVal.str "W2", PyVal.str "C1"],
    PyVal.tuple [PyVal.str "W2", PyVal.str "C2"]],
   "routes", some ["origin", "dest"]⟩

/-! ### Helper lemmas: `List.mapM` in the `Except` monad -/

theorem mapM_except_nil {α β ε : Type} (f : α → Except ε β) :
    ([] : List α).mapM f = Except.ok [] := rfl

theorem mapM_except_cons {α β ε : Type} (f : α → Except ε β) (x : α) (xs : List α) :
    (x :: xs).mapM f =
      match f x with
      | .error e => .error e
      | .ok y =>
        match xs.mapM f with
        | .error e => .error e
        | .ok ys => .ok (y :: ys) := by
  rw [List.mapM_cons]
  cases hfx : f x with
  | error e => simp [Bind.bind, Except.bind, hfx]
  | ok y =>
    cases hxs : xs.mapM f with
    | error e => simp [Bind.bind, Except.bind, hfx, hxs]
    | ok ys => simp [Bind.bind, Except.bind, Pure.pure, Except.pure, hfx, hxs]

theorem mapM_except_ok_length {α β ε : Type} (f : α → Except ε β) :
    ∀ (l : List α) (ys : List β), l.mapM f = Except.ok ys → ys.length = l.length := by
  intro l
  induction l with
  | nil => intro ys h; rw [mapM_except_nil] at h; cases h; rfl
  | cons x xs ih =>
    intro ys h
    rw [mapM_except_cons] at h
    cases hfx : f x with
    | error e => rw [hfx] at h; cases h
    | ok y =>
      rw [hfx] at h
      cases hxs : xs.mapM f with
      | error e => rw [hxs] at h; cases h
      | ok zs =>
        rw [hxs] at h
        cases h
        simp [ih zs hxs]

theorem mapM_except_ok_get {α β ε : Type} (f : α → Except ε β) :
    ∀ (l : List α) (ys : List β), l.mapM f = Except.ok ys →
      ∀ (i : Nat) (x : α), l.get? i = some x → ∃ y, ys.get? i = some y ∧ f x = .ok y := by
  intro l
  induction l with
  | nil => intro ys _ i x hx; cases i <;> cases hx
  | cons a as ih =>
    intro ys h i x hx
    rw [mapM_except_cons] at h
    cases hfa : f a with
    | error e => rw [hfa] at h; cases h
    | ok y =>
      rw [hfa] at h
      cases has : as.mapM f with
      | error e => rw [has] at h; cases h
      | ok zs =>
        rw [has] at h
        cases h
        cases i with
        | zero => cases hx; exact ⟨y, rfl, hfa⟩
        | succ j => exact ih zs has j x hx

theorem mapM_except_ok_forall {α β ε : Type} (f : α → Except ε β)
    (l : List α) (ys : List β) (h : l.mapM f = Except.ok ys) :
    ∀ x ∈ l, ∃ y, f x = .ok y := by
  intro x hx
  obtain ⟨i, hi⟩ := List.get?_of_mem hx
  obtain ⟨y, _, hy⟩ := mapM_except_ok_get f l ys h i x hi
  exact ⟨y, hy⟩

theorem mapM_except_error {α β ε : Type} (f : α → Except ε β)
    (l : List α) (x : α) (hx : x ∈ l) (e : ε) (he : f x = .error e) :
    ∃ e', l.mapM f = Except.error e' := by
  cases h : l.mapM f with
  | error e' => exact ⟨e', rfl⟩
  | ok ys =>
    obtain ⟨y, hy⟩ := mapM_except_ok_forall f l ys h x hx
    rw [he] at hy
    cases hy

/-! ### Helper lemmas: `lastIndexOf` (the `_pos` dict) -/

theorem lastIndexOf_isSome_iff (l : List PyVal) (e : PyVal) :
    (lastIndexOf l e).isSome = true ↔ e ∈ l := by
  induction l with
  | nil => simp [lastIndexOf]
  | cons x xs ih =>
    rw [lastIndexOf]
    cases h : lastIndexOf xs e with
    | some j =>
      simp only [Option.isSome_some, true_iff]
      right
      exact ih.mp (by rw [h]; rfl)
    | none =>
      rw [h] at ih
      simp only [Option.isSome_none, Bool.false_eq_true, false_iff] at ih
      by_cases hx : x = e
      · simp [hx]
      · rw [if_neg hx]
        simp only [Option.isSome_none, Bool.false_eq_true, false_iff, List.mem_cons]
        rintro (he | he)
        · exact hx he.symm
        · exact ih he

theorem lastIndexOf_get (l : List PyVal) (e : PyVal) (i : Nat)
    (h : lastIndexOf l e = some i) : l.get? i = some e := by
  induction l generalizing i with
  | nil => cases h
  | cons x xs ih =>
    rw [lastIndexOf] at h
    cases hx : lastIndexOf xs e with
    | some j =>
      rw [hx] at h
      cases h
      exact ih j hx
    | none =>
      rw [hx] at h
      by_cases hxe : x = e
      · rw [if_pos hxe] at h
        cases h
        simpa using hxe
      · rw [if_neg hxe] at h
        cases h

theorem lastIndexOf_lt_length (l : List PyVal) (e : PyVal) (i : Nat)
    (h : lastIndexOf l e = some i) : i < l.length :=
  List.get?_eq_some.mp (lastIndexOf_get l e i h) |>.1

theorem lastIndexOf_nodup (l : List PyVal) (hl : l.Nodup) (i : Nat) (e : PyVal)
    (h : l.get? i = some e) : lastIndexOf l e = some i := by
  induction l generalizing i with
  | nil => cases i <;> cases h
  | cons x xs ih =>
    rw [List.nodup_cons] at hl
    cases i with
    | zero =>
      cases h
      rw [lastIndexOf]
      have : lastIndexOf xs e = none := by
        cases hx : lastIndexOf xs e with
        | none => rfl
        | some j =>
          have := lastIndexOf_get xs e j hx
          exact absurd (List.get?_mem this) hl.1
      rw [this, if_pos rfl]
    | succ j =>
      rw [lastIndexOf, ih hl.2 j h]

theorem lastIndexOf_inj (l : List PyVal) (e₁ e₂ : PyVal) (i : Nat)
    (h₁ : lastIndexOf l e₁ = some i) (h₂ : lastIndexOf l e₂ = some i) : e₁ = e₂ := by
  have g₁ := lastIndexOf_get l e₁ i h₁
  have g₂ := lastIndexOf_get l e₂ i h₂
  rw [g₁] at g₂
  cases g₂
  rfl

/-! ### Helper lemmas: `dedupFirst` (group keys in first-occurrence order) -/

theorem dedupFirst_append_singleton (l : List PyVal) (x : PyVal) :
    dedupFirst (l ++ [x]) =
      if x ∈ dedupFirst l then dedupFirst l else dedupFirst l ++ [x] := by
  unfold dedupFirst
  rw [List.foldl_append]
  rfl

theorem mem_dedupFirst (l : List PyVal) (a : PyVal) : a ∈ dedupFirst l ↔ a ∈ l := by
  induction l using List.reverseRecOn with
  | nil => simp [dedupFirst]
  | append_singleton l x ih =>
    rw [dedupFirst_append_singleton]
    by_cases hx : x ∈ dedupFirst l
    · rw [if_pos hx]
      simp only [List.mem_append, List.mem_singleton]
      constructor
      · intro h
        exact Or.inl (ih.mp h)
      · rintro (h | rfl)
        · exact ih.mpr h
        · exact hx
    · rw [if_neg hx]
      simp [ih]

theorem nodup_dedupFirst (l : List PyVal) : (dedupFirst l).Nodup := by
  induction l using List.reverseRecOn with
  | nil => simp [dedupFirst]
  | append_singleton l x ih =>
    rw [dedupFirst_append_singleton]
    by_cases hx : x ∈ dedupFirst l
    · rwa [if_pos hx]
    · rw [if_neg hx]
      refine List.Nodup.append ih (List.nodup_singleton x) ?_
      intro a ha hax
      rw [List.mem_singleton] at hax
      subst hax
      exact hx ha

theorem dedupFirst_getD_mem (l : List PyVal) (g : Nat) (hg : g < (dedupFirst l).length) :
    (dedupFirst l).getD g (PyVal.int 0) ∈ l := by
  rw [← mem_dedupFirst]
  rw [List.getD_eq_getElem _ _ hg]
  exact List.getElem_mem hg

theorem dedupFirst_indexOf_mono (l : List PyVal) :
    ∀ g₁ g₂ : Nat, g₁ < g₂ → g₂ < (dedupFirst l).length →
      l.indexOf ((dedupFirst l).getD g₁ (PyVal.int 0)) <
        l.indexOf ((dedupFirst l).getD g₂ (PyVal.int 0)) := by
  induction l using List.reverseRecOn with
  | nil =>
    intro g₁ g₂ _ h₂
    simp [dedupFirst] at h₂
  | append_singleton l x ih =>
    intro g₁ g₂ h₁ h₂
    rw [dedupFirst_append_singleton] at h₂ ⊢
    by_cases hx : x ∈ dedupFirst l
    · rw [if_pos hx] at h₂ ⊢
      have m₁ : (dedupFirst l).getD g₁ (PyVal.int 0) ∈ l :=
        dedupFirst_getD_mem l g₁ (Nat.lt_trans h₁ h₂)
      have m₂ : (dedupFirst l).getD g₂ (PyVal.int 0) ∈ l :=
        dedupFirst_getD_mem l g₂ h₂
      rw [List.indexOf_append_of_mem m₁, List.indexOf_append_of_mem m₂]
      exact ih g₁ g₂ h₁ h₂
    · rw [if_neg hx] at h₂ ⊢
      rw [List.length_append, List.length_singleton] at h₂
      by_cases hg₂ : g₂ < (dedupFirst l).length
      · rw [List.getD_append _ _ _ _ (Nat.lt_trans h₁ hg₂),
          List.getD_append _ _ _ _ hg₂]
        have m₁ : (dedupFirst l).getD g₁ (PyVal.int 0) ∈ l :=
          dedupFirst_getD_mem l g₁ (Nat.lt_trans h₁ hg₂)
        have m₂ : (dedupFirst l).getD g₂ (PyVal.int 0) ∈ l :=
          dedupFirst_getD_mem l g₂ hg₂
        rw [List.indexOf_append_of_mem m₁, List.indexOf_append_of_mem m₂]
        exact ih g₁ g₂ h₁ hg₂
      · have hg₂' : g₂ = (dedupFirst l).length := by omega
        have hg₁ : g₁ < (dedupFirst l).length := by omega
        rw [List.getD_append _ _ _ _ hg₁]
        rw [hg₂', List.getD_append_right _ _ _ _ (Nat.le_refl _)]
        simp only [Nat.sub_self, List.getD_cons_zero]
        have hxl : x ∉ l := fun hmem => hx ((mem_dedupFirst l x).mpr hmem)
        have m₁ : (dedupFirst l).getD g₁ (PyVal.int 0) ∈ l := dedupFirst_getD_mem l g₁ hg₁
        rw [List.indexOf_append_of_mem m₁, List.indexOf_append_of_not_mem hxl]
        have : l.indexOf ((dedupFirst l).getD g₁ (PyVal.int 0)) < l.length :=
          List.indexOf_lt_length.mpr m₁
        simp only [List.indexOf_cons_self]
        omega

/-! ### Helper lemmas: `pyProduct` (itertools.product) -/

theorem length_pyProduct : ∀ ls : List (List PyVal),
    (pyProduct ls).length = (ls.map List.length).prod := by
  intro ls
  induction ls with
  | nil => rfl
  | cons l ls ih =>
    rw [pyProduct, List.map_cons, List.prod_cons, ← ih]
    induction l with
    | nil => simp
    | cons x xs ihx =>
      rw [List.flatMap_cons, List.length_append, ihx, List.length_map,
        List.length_cons]
      ring

theorem pyProduct_mem_length : ∀ (ls : List (List PyVal)) (xs : List PyVal),
    xs ∈ pyProduct ls → xs.length = ls.length := by
  intro ls
  induction ls with
  | nil =>
    intro xs h
    rw [pyProduct, List.mem_singleton] at h
    rw [h]
    rfl
  | cons l ls ih =>
    intro xs h
    rw [pyProduct, List.mem_flatMap] at h
    obtain ⟨x, _, hxs⟩ := h
    rw [List.mem_map] at hxs
    obtain ⟨ys, hys, rfl⟩ := hxs
    rw [List.length_cons, List.length_cons, ih ys hys]

theorem flatMap_uniform_getElem (l : List PyVal) (g : List (List PyVal))
    (q r : Nat) (hq : q < l.length) (hr : r < g.length) :
    (l.flatMap (fun x => g.map (x :: ·)))[g.length * q + r]? =
      some (l.getD q (PyVal.int 0) :: g.getD r []) := by
  induction l generalizing q with
  | nil => cases hq
  | cons a as ih =>
    rw [List.flatMap_cons]
    cases q with
    | zero =>
      rw [Nat.mul_zero, Nat.zero_add]
      rw [List.getElem?_append_left (by rw [List.length_map]; exact hr)]
      rw [List.getElem?_map]
      rw [List.getElem?_eq_getElem hr]
      rw [List.getD_eq_getElem _ _ hr]
      rfl
    | succ p =>
      have hlen : (g.map (a :: ·)).length = g.length := List.length_map _ _
      have hge : (g.map (a :: ·)).length ≤ g.length * (p + 1) + r := by
        rw [hlen, Nat.mul_succ]
        omega
      rw [List.getElem?_append_right hge]
      have harith : g.length * (p + 1) + r - (g.map (a :: ·)).length
          = g.length * p + r := by
        rw [hlen, Nat.mul_succ]
        omega
      rw [harith]
      rw [ih p (Nat.lt_of_succ_lt_succ hq)]
      rfl

theorem pyProduct_getElem : ∀ (ls : List (List PyVal)) (k : Nat),
    k < (ls.map List.length).prod →
    (pyProduct ls)[k]? = some (nestedLexElement ls k) := by
  intro ls
  induction ls with
  | nil =>
    intro k hk
    simp only [List.map_nil, List.prod_nil, Nat.lt_one_iff] at hk
    rw [hk]
    rfl
  | cons l ls ih =>
    intro k hk
    rw [List.map_cons, List.prod_cons] at hk
    set B := (ls.map List.length).prod with hBdef
    have hB : 0 < B := by
      rcases Nat.eq_zero_or_pos B with h0 | h
      · rw [h0, Nat.mul_zero] at hk
        cases hk
      · exact h
    have hq : k / B < l.length := (Nat.div_lt_iff_lt_mul hB).mpr hk
    have hr : k % B < B := Nat.mod_lt _ hB
    have hrg : k % B < (pyProduct ls).length := by
      rw [length_pyProduct]
      exact hr
    have key := flatMap_uniform_getElem l (pyProduct ls) (k / B) (k % B) hq hrg
    rw [length_pyProduct ls, ← hBdef] at key
    rw [Nat.div_add_mod] at key
    have hnest : nestedLexElement (l :: ls) k
        = l.getD (k / B) (PyVal.int 0) :: nestedLexElement ls (k % B) := rfl
    have hsub : (pyProduct ls).getD (k % B) [] = nestedLexElement ls (k % B) := by
      rw [List.getD_eq_getElem?_getD, ih (k % B) hr]
      rfl
    rw [pyProduct, key, hnest, hsub]

/-! ### Helper lemmas: the aggregation matrix -/

section NumericLemmas

variable {R : Type} [CommRing R]

theorem csrEntry_cons (t : Nat × Nat × R) (ts : List (Nat × Nat × R)) (g e : Nat) :
    csrEntry (t :: ts) g e =
      (if t.1 = g ∧ t.2.1 = e then t.2.2 else 0) + csrEntry ts g e := by
  by_cases h1 : t.1 = g
  · by_cases h2 : t.2.1 = e
    · simp [csrEntry, List.filter_cons, h1, h2]
    · simp [csrEntry, List.filter_cons, h1, h2]
  · simp [csrEntry, List.filter_cons, h1]

theorem csrEntry_aggTriplets_lt (row : PyVal → Nat) :
    ∀ (ks : List PyVal) (j g e : Nat), e < j →
      csrEntry (aggTriplets (R := R) row j ks) g e = 0 := by
  intro ks
  induction ks with
  | nil => intro j g e _; rfl
  | cons k ks ih =>
    intro j g e he
    simp only [aggTriplets]
    rw [csrEntry_cons]
    have hhead : ¬((row k, j, (1 : R)).1 = g ∧ (row k, j, (1 : R)).2.1 = e) := by
      rintro ⟨-, h2⟩
      simp only at h2
      omega
    rw [if_neg hhead, ih (j + 1) g e (by omega), add_zero]

theorem csrEntry_aggTriplets (row : PyVal → Nat) :
    ∀ (ks : List PyVal) (j g m : Nat), m < ks.length →
      csrEntry (aggTriplets (R := R) row j ks) g (j + m)
        = if row (ks.getD m (PyVal.int 0)) = g then (1 : R) else 0 := by
  intro ks
  induction ks with
  | nil => intro j g m hm; cases hm
  | cons k ks ih =>
    intro j g m hm
    simp only [aggTriplets]
    rw [csrEntry_cons]
    cases m with
    | zero =>
      have htail : csrEntry (aggTriplets (R := R) row (j + 1) ks) g (j + 0) = 0 :=
        csrEntry_aggTriplets_lt row ks (j + 1) g (j + 0) (by omega)
      rw [htail, add_zero, List.getD_cons_zero]
      by_cases hg : row k = g
      · rw [if_pos ⟨hg, rfl⟩, if_pos hg]
      · rw [if_neg (by rintro ⟨h1, -⟩; exact hg h1), if_neg hg]
    | succ p =>
      have hhead : ¬((row k, j, (1 : R)).1 = g ∧ (row k, j, (1 : R)).2.1 = j + (p + 1)) := by
        rintro ⟨-, h2⟩
        simp only at h2
        omega
      rw [if_neg hhead, zero_add]
      have harith : j + (p + 1) = (j + 1) + p := by omega
      rw [harith, ih (j + 1) g p (by simpa using hm), List.getD_cons_succ]

theorem keyToRow_get (gks : List PyVal) (k : PyVal) (hk : k ∈ gks) :
    gks.get? (keyToRow gks k) = some k := by
  rw [keyToRow]
  cases h : lastIndexOf gks k with
  | some i => simpa using lastIndexOf_get gks k i h
  | none =>
    have hs := (lastIndexOf_isSome_iff gks k).mpr hk
    rw [h] at hs
    cases hs

theorem keyToRow_eq_iff (gks : List PyVal) (hnd : gks.Nodup) (k : PyVal) (hk : k ∈ gks)
    (g : Nat) (hg : g < gks.length) :
    keyToRow gks k = g ↔ gks.getD g (PyVal.int 0) = k := by
  constructor
  · intro h
    have hget := keyToRow_get gks k hk
    rw [h, List.get?_eq_getElem?, List.getElem?_eq_getElem hg] at hget
    rw [List.getD_eq_getElem _ _ hg]
    exact Option.some.inj hget
  · intro h
    have hget : gks.get? g = some k := by
      rw [List.get?_eq_getElem?, List.getElem?_eq_getElem hg,
        ← List.getD_eq_getElem gks (PyVal.int 0) hg, h]
    have := lastIndexOf_nodup gks hnd g k hget
    rw [keyToRow, this]
    rfl

theorem aggEntry_char (ks : List PyVal) (g e : Nat)
    (hg : g < (dedupFirst ks).length) (he : e < ks.length) :
    csrEntry (aggTriplets (R := R) (keyToRow (dedupFirst ks)) 0 ks) g e
      = if ks.getD e (PyVal.int 0) = (dedupFirst ks).getD g (PyVal.int 0)
        then (1 : R) else 0 := by
  have h0 := csrEntry_aggTriplets (R := R) (keyToRow (dedupFirst ks)) ks 0 g e he
  rw [Nat.zero_add] at h0
  rw [h0]
  have hmem : ks.getD e (PyVal.int 0) ∈ ks := by
    rw [List.getD_eq_getElem _ _ he]
    exact List.getElem_mem he
  have hmem' : ks.getD e (PyVal.int 0) ∈ dedupFirst ks := (mem_dedupFirst _ _).mpr hmem
  by_cases hcase : (dedupFirst ks).getD g (PyVal.int 0) = ks.getD e (PyVal.int 0)
  · rw [if_pos ((keyToRow_eq_iff _ (nodup_dedupFirst ks) _ hmem' g hg).mpr hcase),
      if_pos hcase.symm]
  · rw [if_neg (fun h => hcase ((keyToRow_eq_iff _ (nodup_dedupFirst ks) _ hmem' g hg).mp h)),
      if_neg (fun h => hcase h.symm)]

theorem matVecEntry_indicator (ks : List PyVal) (g : Nat)
    (hg : g < (dedupFirst ks).length) (v : Nat → R) :
    matVecEntry (csrEntry (aggTriplets (keyToRow (dedupFirst ks)) 0 ks)) ks.length v g
      = ((List.range ks.length).map (fun e =>
          if ks.getD e (PyVal.int 0) = (dedupFirst ks).getD g (PyVal.int 0)
          then v e else 0)).sum := by
  rw [matVecEntry]
  congr 1
  apply List.map_congr_left
  intro e he
  rw [List.mem_range] at he
  rw [aggEntry_char ks g e hg he]
  by_cases hc : ks.getD e (PyVal.int 0) = (dedupFirst ks).getD g (PyVal.int 0)
  · rw [if_pos hc, if_pos hc, one_mul]
  · rw [if_neg hc, if_neg hc, zero_mul]

theorem sum_map_ite_one (l : List Nat) (p : Nat → Prop) [DecidablePred p] :
    (l.map (fun e => if p e then (1 : R) else 0)).sum
      = ((l.filter (fun e => decide (p e))).length : R) := by
  induction l with
  | nil => simp
  | cons x xs ih =>
    by_cases hx : p x
    · simp only [List.map_cons, List.sum_cons, if_pos hx, ih, List.filter_cons,
        decide_eq_true hx]
      rw [if_pos trivial, List.length_cons, Nat.cast_add, Nat.cast_one]
      ring
    · simp only [List.map_cons, List.sum_cons, if_neg hx, ih, List.filter_cons]
      rw [decide_eq_false hx]
      simp

end NumericLemmas

theorem except_bind_ok {ε α β : Type} (a : α) (f : α → Except ε β) :
    (Except.ok a : Except ε α) >>= f = f a := rfl

theorem except_bind_pure {ε α β : Type} (a : α) (f : α → Except ε β) :
    (pure a : Except ε α) >>= f = f a := rfl

/-! ### Claim theorems -/

/-- Claim C1: for every compound Index Set and every list of retained
positions (such that every element's retained sub-key exists, recorded by
`hks`), `sum_by` builds the sparse 0/1 matrix whose groups are the
distinct retained sub-keys in first-occurrence order over the index's
element order (the sub-key of an element is the scalar component when one
position is retained, else the tuple of components), with entry
`M[g,e] = 1` iff element `e`'s sub-key equals group `g`'s key; applying
the matrix to the all-ones vector yields the per-group element counts,
and applying it to any vector yields the exact per-group sums. -/
theorem C1_sum_by_aggregation_matrix {R : Type} [CommRing R]
    (index : PySet) (ps : List Int) (ks : List PyVal)
    (hks : index._elements.mapM (extractKey ps) = Except.ok ks) :
    build_aggregation_matrix (R := R) index ps
      = Except.ok ⟨(dedupFirst ks).length, index.size,
          aggTriplets (keyToRow (dedupFirst ks)) 0 ks⟩
    ∧ (dedupFirst ks).Nodup
    ∧ (∀ k, k ∈ dedupFirst ks ↔ k ∈ ks)
    ∧ (∀ g₁ g₂ : Nat, g₁ < g₂ → g₂ < (dedupFirst ks).length →
        ks.indexOf ((dedupFirst ks).getD g₁ (PyVal.int 0))
          < ks.indexOf ((dedupFirst ks).getD g₂ (PyVal.int 0)))
    ∧ (∀ (elem : PyVal) (p : Int), extractKey [p] elem = pySubscript elem p)
    ∧ (∀ g e : Nat, g < (dedupFirst ks).length → e < index.size →
        csrEntry (aggTriplets (R := R) (keyToRow (dedupFirst ks)) 0 ks) g e
          = if ks.getD e (PyVal.int 0) = (dedupFirst ks).getD g (PyVal.int 0)
            then 1 else 0)
    ∧ (∀ g : Nat, g < (dedupFirst ks).length →
        matVecEntry (csrEntry (aggTriplets (keyToRow (dedupFirst ks)) 0 ks))
            index.size (fun _ => (1 : R)) g
          = (((List.range index.size).filter (fun e =>
              decide (ks.getD e (PyVal.int 0)
                = (dedupFirst ks).getD g (PyVal.int 0)))).length : R))
    ∧ (∀ (v : Nat → R) (g : Nat), g < (dedupFirst ks).length →
        matVecEntry (csrEntry (aggTriplets (keyToRow (dedupFirst ks)) 0 ks))
            index.size v g
          = ((List.range index.size).map (fun e =>
              if ks.getD e (PyVal.int 0) = (dedupFirst ks).getD g (PyVal.int 0)
              then v e else 0)).sum)
    ∧ (∀ (positions : List PyKey) (v : Nat → R),
        positions.mapM index.resolve_position = Except.ok ps →
        index._is_compound = true →
        sum_by v positions index
          = Except.ok (matVec ⟨(dedupFirst ks).length, index.size,
              aggTriplets (keyToRow (dedupFirst ks)) 0 ks⟩ v)) := by
  have hlen : ks.length = index.size :=
    mapM_except_ok_length (extractKey ps) index._elements ks hks
  have hbuild : build_aggregation_matrix (R := R) index ps
      = Except.ok ⟨(dedupFirst ks).length, index.size,
          aggTriplets (keyToRow (dedupFirst ks)) 0 ks⟩ := by
    rw [build_aggregation_matrix]
    rw [hks]
    rfl
  refine ⟨hbuild, nodup_dedupFirst ks, fun k => mem_dedupFirst ks k,
    dedupFirst_indexOf_mono ks, fun elem p => rfl, ?_, ?_, ?_, ?_⟩
  · intro g e hg he
    rw [← hlen] at he
    exact aggEntry_char ks g e hg he
  · intro g hg
    rw [← hlen, matVecEntry_indicator ks g hg (fun _ => (1 : R))]
    exact sum_map_ite_one (List.range ks.length)
      (fun e => ks.getD e (PyVal.int 0) = (dedupFirst ks).getD g (PyVal.int 0))
  · intro v g hg
    rw [← hlen]
    exact matVecEntry_indicator ks g hg v
  · intro positions v hres hcomp
    rw [sum_by]
    rw [if_neg (by rw [hcomp]; exact fun h => Bool.noConfusion h)]
    rw [except_bind_pure]
    rw [hres, except_bind_ok, hbuild, except_bind_ok]
    rfl

/-- Witness for C1 at the spec's routes example: index
`[('W1','C1'), ('W1','C2'), ('W2','C1'), ('W2','C2')]` with names
`('origin','dest')`, grouping by position 0.  The matrix exists, applied
to the all-ones vector it counts two elements per origin group, and
`sum_by` of the vector `[1,2,3,4]` by name `'origin'` gives `[3,7]`. -/
theorem C1_sum_by_aggregation_matrix_witness :
    sum_by (fun e => [(1 : ℤ), 2, 3, 4].getD e 0) [PyKey.str "origin"]
      ⟨[PyVal.tuple [PyVal.str "W1", PyVal.str "C1"],
        PyVal.tuple [PyVal.str "W1", PyVal.str "C2"],
        PyVal.tuple [PyVal.str "W2", PyVal.str "C1"],
        PyVal.tuple [PyVal.str "W2", PyVal.str "C2"]],
       "routes", some ["origin", "dest"]⟩
      = Except.ok (matVec ⟨2, 4,
          aggTriplets (keyToRow (dedupFirst [PyVal.str "W1", PyVal.str "W1",
            PyVal.str "W2", PyVal.str "W2"])) 0
            [PyVal.str "W1", PyVal.str "W1", PyVal.str "W2", PyVal.str "W2"]⟩
          (fun e => [(1 : ℤ), 2, 3, 4].getD e 0)) := by
  have h := C1_sum_by_aggregation_matrix (R := ℤ)
    ⟨[PyVal.tuple [PyVal.str "W1", PyVal.str "C1"],
      PyVal.tuple [PyVal.str "W1", PyVal.str "C2"],
      PyVal.tuple [PyVal.str "W2", PyVal.str "C1"],
      PyVal.tuple [PyVal.str "W2", PyVal.str "C2"]],
     "routes", some ["origin", "dest"]⟩
    [(0 : Int)]
    [PyVal.str "W1", PyVal.str "W1", PyVal.str "W2", PyVal.str "W2"]
    (by decide)
  exact h.2.2.2.2.2.2.2.2 [PyKey.str "origin"]
    (fun e => [(1 : ℤ), 2, 3, 4].getD e 0) (by decide) (by decide)

theorem cross_ok_no_names (indices : List PySet) (name : Option String)
    (autoName : String) (h2 : 2 ≤ indices.length) :
    PySet.cross indices name autoName none
      = Except.ok ⟨(pyProduct (indices.map (fun i => i._elements))).map PyVal.tuple,
          pyOrName name autoName, some (indices.map (fun idx => idx._name))⟩ := by
  have hnotlt : ¬indices.length < 2 := by omega
  set ls := indices.map (fun i => i._elements) with hls
  set elements := (pyProduct ls).map PyVal.tuple with helems
  have hsrc : indices.map (fun idx => idx._name) ≠ [] := by
    intro hnil
    rw [List.map_eq_nil_iff] at hnil
    rw [hnil] at h2
    exact absurd h2 (by decide)
  have harity : ∀ (comps : List PyVal) (rest : List PyVal),
      elements = PyVal.tuple comps :: rest →
      comps.length = indices.length := by
    intro comps rest heq
    have hmem : PyVal.tuple comps ∈ elements := by rw [heq]; exact List.mem_cons_self _ _
    rw [helems, List.mem_map] at hmem
    obtain ⟨xs, hxs, hx⟩ := hmem
    have hlen := pyProduct_mem_length ls xs hxs
    cases hx
    rw [hlen, hls, List.length_map]
  have hnorm : normNames (some (indices.map (fun idx => idx._name)))
      = some (indices.map (fun idx => idx._name)) := by
    rw [normNames, if_neg hsrc]
  rw [PySet.cross, if_neg hnotlt]
  show mkSet elements name autoName (some (indices.map (fun idx => idx._name)))
    = _
  have harityOk : namesArityOk
      (normNames (some (indices.map (fun idx => idx._name)))) elements = true := by
    rw [hnorm]
    cases helems' : elements with
    | nil => rfl
    | cons e rest =>
      cases e with
      | str a => rfl
      | int a => rfl
      | tuple comps =>
        have := harity comps rest helems'
        simp [namesArityOk, this]
  rw [mkSet, if_pos harityOk, hnorm]

/-- Claim C2: for two or more Index Sets, `cross` returns a new Index Set
whose size is the product of the operands' sizes and whose elements are
exactly the Cartesian product enumerated in nested lexicographic order
(first operand slowest, last fastest, captured by `nestedLexElement`);
a compound operand's tuple stays a single component of each product
element (each product element is a tuple with exactly one component per
operand); `cross` with fewer than two operands fails with an error. -/
theorem C2_cross_product (indices : List PySet) (name : Option String)
    (autoName : String) :
    (2 ≤ indices.length →
      ∃ s : PySet, PySet.cross indices name autoName none = Except.ok s
        ∧ s.size = (indices.map PySet.size).prod
        ∧ (∀ k : Nat, k < s.size →
            s._elements[k]? = some (PyVal.tuple
              (nestedLexElement (indices.map (fun i => i._elements)) k)))
        ∧ (∀ e ∈ s._elements, ∃ comps : List PyVal,
            e = PyVal.tuple comps ∧ comps.length = indices.length))
    ∧ (indices.length < 2 →
        PySet.cross indices name autoName none
          = Except.error (.valueError "cross() requires at least 2 indices")) := by
  constructor
  · intro h2
    set ls := indices.map (fun i => i._elements) with hls
    set elements := (pyProduct ls).map PyVal.tuple with helems
    have hsz : elements.length = (indices.map PySet.size).prod := by
      rw [helems, List.length_map, length_pyProduct, hls, List.map_map]
      rfl
    have hok := cross_ok_no_names indices name autoName h2
    rw [← hls, ← helems] at hok
    refine ⟨_, hok, hsz, ?_, ?_⟩
    · intro k hk
      simp only [PySet.size] at hk
      rw [hsz] at hk
      have hk' : k < (ls.map List.length).prod := by
        rw [hls, List.map_map]
        exact hk
      show elements[k]? = _
      rw [helems, List.getElem?_map, pyProduct_getElem ls k hk']
      rfl
    · intro e he
      show ∃ comps, e = PyVal.tuple comps ∧ comps.length = indices.length
      rw [helems, List.mem_map] at he
      obtain ⟨xs, hxs, rfl⟩ := he
      refine ⟨xs, rfl, ?_⟩
      rw [pyProduct_mem_length ls xs hxs, hls, List.length_map]
  · intro hlt
    rw [PySet.cross, if_pos hlt]

/-- Witness for C2: the spec's warehouses × customers example (sizes 2
and 2). -/
theorem C2_cross_product_witness :
    2 ≤ ([exWarehouses, exCustomers] : List PySet).length
    ∧ ∃ s : PySet,
        PySet.cross [exWarehouses, exCustomers] none "Set_1" none = Except.ok s
        ∧ s.size = ([exWarehouses, exCustomers].map PySet.size).prod
        ∧ (∀ k : Nat, k < s.size →
            s._elements[k]? = some (PyVal.tuple
              (nestedLexElement (([exWarehouses, exCustomers] : List PySet).map
                (fun i => i._elements)) k)))
        ∧ (∀ e ∈ s._elements, ∃ comps : List PyVal,
            e = PyVal.tuple comps
              ∧ comps.length = ([exWarehouses, exCustomers] : List PySet).length) :=
  ⟨by decide, (C2_cross_product [exWarehouses, exCustomers] none "Set_1").1 (by decide)⟩

theorem mkSet_ok_elim (elements : List PyVal) (name : Option String)
    (autoName : String) (names : Option (List String)) (s : PySet)
    (h : mkSet elements name autoName names = Except.ok s) :
    s = ⟨elements, pyOrName name autoName, normNames names⟩ := by
  rw [mkSet] at h
  by_cases hc : namesArityOk (normNames names) elements = true
  · rw [if_pos hc] at h
    cases h
    rfl
  · rw [if_neg hc] at h
    cases h

/-- Claim C10: `Set` construction succeeds for every finite element
sequence when no names are supplied (there is no arity check across
elements); the result is classified compound iff the sequence is
non-empty and its FIRST element is a tuple (an empty set is never
compound, a mixed sequence is classified solely by its first element);
construction can fail only through the names-length-equals-arity
validation, which runs only when the set is classified compound (and the
normalized names are non-empty). -/
theorem C10_construction_classification (elements : List PyVal)
    (name : Option String) (autoName : String) (names : Option (List String)) :
    mkSet elements name autoName none
      = Except.ok ⟨elements, pyOrName name autoName, none⟩
    ∧ (∀ s : PySet, mkSet elements name autoName names = Except.ok s →
        s._elements = elements
        ∧ (s._is_compound = true
            ↔ ∃ comps tail, elements = PyVal.tuple comps :: tail))
    ∧ ((∃ e, mkSet elements name autoName names = Except.error e)
        ↔ ∃ ns comps tail, names = some ns ∧ ns ≠ []
            ∧ elements = PyVal.tuple comps :: tail
            ∧ ns.length ≠ comps.length) := by
  refine ⟨?_, ?_, ?_⟩
  · rw [mkSet]
    have h1 : namesArityOk (normNames none) elements = true := by
      cases elements with
      | nil => rfl
      | cons e tail => cases e <;> rfl
    rw [if_pos h1]
    rfl
  · intro s hs
    have := mkSet_ok_elim elements name autoName names s hs
    subst this
    refine ⟨rfl, ?_⟩
    show isCompoundOf elements = true ↔ _
    cases elements with
    | nil =>
      simp only [isCompoundOf]
      constructor
      · intro h; cases h
      · rintro ⟨comps, tail, h⟩; cases h
    | cons e tail =>
      cases e with
      | str a =>
        simp only [isCompoundOf, PyVal.isTuple]
        constructor
        · intro h; cases h
        · rintro ⟨comps, tail', h⟩; cases h
      | int a =>
        simp only [isCompoundOf, PyVal.isTuple]
        constructor
        · intro h; cases h
        · rintro ⟨comps, tail', h⟩; cases h
      | tuple comps =>
        simp only [isCompoundOf, PyVal.isTuple]
        exact ⟨fun _ => ⟨comps, tail, rfl⟩, fun _ => trivial⟩
  · rw [mkSet]
    constructor
    · intro ⟨e, he⟩
      by_cases hc : namesArityOk (normNames names) elements = true
      · rw [if_pos hc] at he
        cases he
      · cases hnames : names with
        | none => rw [hnames] at hc; exact absurd (by cases elements with
            | nil => rfl
            | cons x tail => cases x <;> rfl) hc
        | some ns0 =>
          rw [hnames] at hc
          by_cases hns0 : ns0 = []
          · subst hns0
            refine absurd ?_ hc
            show namesArityOk (normNames (some [])) elements = true
            have : normNames (some ([] : List String)) = none := by
              rw [normNames, if_pos rfl]
            rw [this]
            cases elements with
            | nil => rfl
            | cons x tail => cases x <;> rfl
          · have hnn : normNames (some ns0) = some ns0 := by
              rw [normNames, if_neg hns0]
            rw [hnn] at hc
            cases elements with
            | nil => exact absurd rfl hc
            | cons x tail =>
              cases x with
              | str a => exact absurd rfl hc
              | int a => exact absurd rfl hc
              | tuple comps =>
                refine ⟨ns0, comps, tail, rfl, hns0, rfl, ?_⟩
                intro hlen
                exact hc (by simp only [namesArityOk]; exact beq_iff_eq.mpr hlen)
    · rintro ⟨ns, comps, tail, rfl, hns, rfl, hlen⟩
      have hnn : normNames (some ns) = some ns := by
        rw [normNames, if_neg hns]
      have hc : namesArityOk (normNames (some ns)) (PyVal.tuple comps :: tail) = false := by
        rw [hnn]
        simp only [namesArityOk]
        exact beq_eq_false_iff_ne.mpr hlen
      rw [hc]
      exact ⟨_, rfl⟩

/-- Witness for C10 at a mixed sequence whose first element is a tuple
and whose later elements are scalars. -/
theorem C10_construction_classification_witness :
    mkSet [PyVal.tuple [PyVal.str "a"], PyVal.str "b"] (some "S") "auto" none
      = Except.ok ⟨[PyVal.tuple [PyVal.str "a"], PyVal.str "b"],
          pyOrName (some "S") "auto", none⟩
    ∧ (∀ s : PySet,
        mkSet [PyVal.tuple [PyVal.str "a"], PyVal.str "b"] (some "S") "auto"
          (some ["x"]) = Except.ok s →
        s._elements = [PyVal.tuple [PyVal.str "a"], PyVal.str "b"]
        ∧ (s._is_compound = true ↔ ∃ comps tail,
            [PyVal.tuple [PyVal.str "a"], PyVal.str "b"]
              = PyVal.tuple comps :: tail))
    ∧ ((∃ e, mkSet [PyVal.tuple [PyVal.str "a"], PyVal.str "b"] (some "S") "auto"
          (some ["x"]) = Except.error e)
        ↔ ∃ ns comps tail, (some ["x"] : Option (List String)) = some ns ∧ ns ≠ []
            ∧ [PyVal.tuple [PyVal.str "a"], PyVal.str "b"]
                = PyVal.tuple comps :: tail
            ∧ ns.length ≠ comps.length) :=
  C10_construction_classification [PyVal.tuple [PyVal.str "a"], PyVal.str "b"]
    (some "S") "auto" (some ["x"])

/-- Claim C4: for every Index Set built from pairwise-distinct elements,
`position` is a dense bijection from the elements onto `[0, n)` (the set
of positions of the elements is exactly `\x7b0, ..., n-1\x7d`), and
iteration yields the elements in original construction order. -/
theorem C4_position_dense_bijection (elements : List PyVal) (name : Option String)
    (autoName : String) (names : Option (List String)) (s : PySet)
    (hmk : mkSet elements name autoName names = Except.ok s)
    (hnd : elements.Nodup) :
    s._elements = elements
    ∧ (∀ k : Nat, k < elements.length →
        s.position (elements.getD k (PyVal.int 0)) = Except.ok k)
    ∧ (∀ i : Nat, (∃ e ∈ s._elements, s.position e = Except.ok i) ↔ i < s.size) := by
  have hs := mkSet_ok_elim elements name autoName names s hmk
  subst hs
  refine ⟨rfl, ?_, ?_⟩
  · intro k hk
    have hget : elements.get? k = some (elements.getD k (PyVal.int 0)) := by
      rw [List.getD_eq_getElem _ _ hk, List.get?_eq_getElem?, List.getElem?_eq_getElem hk]
    rw [PySet.position, lastIndexOf_nodup elements hnd k _ hget]
  · intro i
    constructor
    · rintro ⟨e, _, hpos⟩
      rw [PySet.position] at hpos
      cases hl : lastIndexOf elements e with
      | none => rw [hl] at hpos; cases hpos
      | some j =>
        rw [hl] at hpos
        cases hpos
        exact lastIndexOf_lt_length elements e i hl
    · intro hi
      refine ⟨elements.getD i (PyVal.int 0), ?_, ?_⟩
      · show elements.getD i (PyVal.int 0) ∈ elements
        rw [List.getD_eq_getElem _ _ hi]
        exact List.getElem_mem hi
      · have hget : elements.get? i = some (elements.getD i (PyVal.int 0)) := by
          rw [List.getD_eq_getElem _ _ hi, List.get?_eq_getElem?, List.getElem?_eq_getElem hi]
        rw [PySet.position, lastIndexOf_nodup elements hnd i _ hget]

/-- Witness for C4 at the spec's scenario `Set(['a','b','c'])`. -/
theorem C4_position_dense_bijection_witness :
    (⟨[PyVal.str "a", PyVal.str "b", PyVal.str "c"], "S", none⟩ : PySet)._elements
      = [PyVal.str "a", PyVal.str "b", PyVal.str "c"]
    ∧ (∀ k : Nat, k < ([PyVal.str "a", PyVal.str "b", PyVal.str "c"] : List PyVal).length →
        PySet.position ⟨[PyVal.str "a", PyVal.str "b", PyVal.str "c"], "S", none⟩
          ([PyVal.str "a", PyVal.str "b", PyVal.str "c"].getD k (PyVal.int 0))
          = Except.ok k)
    ∧ (∀ i : Nat,
        (∃ e ∈ (⟨[PyVal.str "a", PyVal.str "b", PyVal.str "c"], "S", none⟩ : PySet)._elements,
          PySet.position ⟨[PyVal.str "a", PyVal.str "b", PyVal.str "c"], "S", none⟩ e
            = Except.ok i)
        ↔ i < (⟨[PyVal.str "a", PyVal.str "b", PyVal.str "c"], "S", none⟩ : PySet).size) :=
  C4_position_dense_bijection [PyVal.str "a", PyVal.str "b", PyVal.str "c"]
    (some "S") "auto" none ⟨[PyVal.str "a", PyVal.str "b", PyVal.str "c"], "S", none⟩
    (by decide) (by decide)

/-- Counterexample to claim C5 as stated: an operand constructed WITHOUT
a caller-supplied label does not make the product's `names` absent.  The
source assigns every `Set` the id-based fallback name (`name or
f"Set_\x7bid(self)\x7d"`), so the guard `all(n is not None ...)` always
holds and the product's `names` is always present — here it is
`('Set_1', 'customers')`, not absent. -/
theorem C5_cross_names_counterexample :
    mkSet [PyVal.str "a"] none "Set_1" none
      = Except.ok ⟨[PyVal.str "a"], "Set_1", none⟩
    ∧ (PySet.cross [⟨[PyVal.str "a"], "Set_1", none⟩, exCustomers]
          none "Set_3" none).map (fun s => s._names)
        = Except.ok (some ["Set_1", "customers"])
    ∧ Except.ok (some ["Set_1", "customers"])
        ≠ (Except.ok none : Except PyError (Option (List String))) := by
  refine ⟨by decide, by decide, by decide⟩

/-- Claim C5, amended: for every cross-product call without
caller-supplied names, the product's `names` is the tuple of the
operands' stored `_name` strings — which equal the caller labels when
those were supplied, and the auto-generated id-based fallback otherwise.
Since every operand always carries a (possibly auto-generated) `_name`,
the product's `names` is never absent. -/
theorem C5_cross_names_default (indices : List PySet) (name : Option String)
    (autoName : String) (h2 : 2 ≤ indices.length) :
    (PySet.cross indices name autoName none).map (fun s => s._names)
      = Except.ok (some (indices.map (fun idx => idx._name)))
    ∧ (indices.map (fun idx => idx._name)).length = indices.length := by
  rw [cross_ok_no_names indices name autoName h2]
  exact ⟨rfl, List.length_map _ _⟩

/-- Witness for C5 (amended) at the warehouses × customers example. -/
theorem C5_cross_names_default_witness :
    (PySet.cross [exWarehouses, exCustomers] none "Set_1" none).map (fun s => s._names)
      = Except.ok (some (([exWarehouses, exCustomers] : List PySet).map
          (fun idx => idx._name)))
    ∧ (([exWarehouses, exCustomers] : List PySet).map (fun idx => idx._name)).length
        = ([exWarehouses, exCustomers] : List PySet).length :=
  C5_cross_names_default [exWarehouses, exCustomers] none "Set_1" (by decide)

/-- Counterexample to claim C6 as stated: `_resolve_position` does NOT
check compoundness.  A non-compound `Set` that was nevertheless given
`names` (the arity validation is skipped for non-compound sets) resolves
a present name successfully instead of failing with `UnknownPosition`. -/
theorem C6_resolve_position_counterexample :
    mkSet [PyVal.str "a", PyVal.str "b"] (some "S") "auto" (some ["x", "y"])
      = Except.ok ⟨[PyVal.str "a", PyVal.str "b"], "S", some ["x", "y"]⟩
    ∧ PySet._is_compound ⟨[PyVal.str "a", PyVal.str "b"], "S", some ["x", "y"]⟩ = false
    ∧ PySet.resolve_position ⟨[PyVal.str "a", PyVal.str "b"], "S", some ["x", "y"]⟩
        (PyKey.str "x") = Except.ok 0 := by
  refine ⟨by decide, by decide, by decide⟩

theorem indexOf_le_of_get? (ns : List String) (nm : String) :
    ∀ j : Nat, ns.get? j = some nm → ns.indexOf nm ≤ j := by
  induction ns with
  | nil => intro j h; cases j <;> cases h
  | cons x xs ih =>
    intro j h
    cases j with
    | zero =>
      cases h
      rw [List.indexOf_cons_self]
    | succ j' =>
      by_cases hx : x = nm
      · rw [List.indexOf_cons_eq _ hx]
        omega
      · rw [List.indexOf_cons_ne _ hx]
        have := ih j' h
        omega

/-- Claim C6, amended: `resolve_position` returns any integer argument
unchanged; a string argument fails with `UnknownPosition` (a `KeyError`)
exactly when `_names` is absent (or empty) or the string is absent from
`_names` — compoundness of the Index Set is NOT checked; when the string
is present in `_names` the result is that name's first offset. -/
theorem C6_resolve_position_spec (s : PySet) (i : Int) (nm : String) :
    PySet.resolve_position s (PyKey.int i) = Except.ok i
    ∧ ((∃ e, PySet.resolve_position s (PyKey.str nm) = Except.error e)
        ↔ ¬∃ ns, s._names = some ns ∧ ns ≠ [] ∧ nm ∈ ns)
    ∧ (∀ ns, s._names = some ns → ns ≠ [] → nm ∈ ns →
        ∃ j : Nat, PySet.resolve_position s (PyKey.str nm) = Except.ok (j : Int)
          ∧ ns.get? j = some nm
          ∧ ∀ j' : Nat, j' < j → ns.get? j' ≠ some nm) := by
  refine ⟨rfl, ?_, ?_⟩
  · rw [PySet.resolve_position]
    cases hns : s._names with
    | none =>
      simp only
      constructor
      · rintro - ⟨ns, hns', -⟩
        cases hns'
      · intro _
        exact ⟨_, rfl⟩
    | some ns =>
      simp only
      by_cases hc : ns ≠ [] ∧ nm ∈ ns
      · rw [if_pos hc]
        constructor
        · rintro ⟨e, he⟩
          cases he
        · intro hno
          exact absurd ⟨ns, rfl, hc.1, hc.2⟩ hno
      · rw [if_neg hc]
        constructor
        · rintro - ⟨ns', hns', hne, hmem⟩
          cases hns'
          exact hc ⟨hne, hmem⟩
        · intro _
          exact ⟨_, rfl⟩
  · intro ns hns hne hmem
    rw [PySet.resolve_position, hns]
    simp only
    rw [if_pos ⟨hne, hmem⟩]
    refine ⟨ns.indexOf nm, rfl, ?_, ?_⟩
    · exact List.indexOf_get? hmem
    · intro j' hj' hget
      have := indexOf_le_of_get? ns nm j' hget
      omega

/-- Witness for C6 (amended): an int key is returned unchanged (even a
negative one) and a present name resolves to its first offset. -/
theorem C6_resolve_position_spec_witness :
    PySet.resolve_position ⟨[PyVal.str "a", PyVal.str "b"], "S", some ["x", "y"]⟩
        (PyKey.int (-5)) = Except.ok (-5)
    ∧ ∃ j : Nat,
        PySet.resolve_position ⟨[PyVal.str "a", PyVal.str "b"], "S", some ["x", "y"]⟩
          (PyKey.str "y") = Except.ok (j : Int)
        ∧ ["x", "y"].get? j = some "y"
        ∧ ∀ j' : Nat, j' < j → ["x", "y"].get? j' ≠ some "y" :=
  ⟨(C6_resolve_position_spec ⟨[PyVal.str "a", PyVal.str "b"], "S", some ["x", "y"]⟩
      (-5) "y").1,
    (C6_resolve_position_spec ⟨[PyVal.str "a", PyVal.str "b"], "S", some ["x", "y"]⟩
      (-5) "y").2.2 ["x", "y"] rfl (by decide) (by decide)⟩

/-! ### Helper lemmas: the `set_data` write loop -/

section SetDataLemmas

variable {R : Type}

theorem position_ok_of_mem (idx : PySet) (e : PyVal) (he : e ∈ idx._elements) :
    ∃ i, idx.position e = Except.ok i ∧ i < idx.size := by
  cases hl : lastIndexOf idx._elements e with
  | none =>
    have := (lastIndexOf_isSome_iff idx._elements e).mpr he
    rw [hl] at this
    cases this
  | some i =>
    refine ⟨i, ?_, lastIndexOf_lt_length _ _ _ hl⟩
    rw [PySet.position, hl]

theorem position_inj (idx : PySet) (e₁ e₂ : PyVal) (i : Nat)
    (h₁ : idx.position e₁ = Except.ok i) (h₂ : idx.position e₂ = Except.ok i) :
    e₁ = e₂ := by
  rw [PySet.position] at h₁ h₂
  cases hl₁ : lastIndexOf idx._elements e₁ with
  | none => rw [hl₁] at h₁; cases h₁
  | some j₁ =>
    rw [hl₁] at h₁
    cases h₁
    cases hl₂ : lastIndexOf idx._elements e₂ with
    | none => rw [hl₂] at h₂; cases h₂
    | some j₂ =>
      rw [hl₂] at h₂
      cases h₂
      exact lastIndexOf_inj idx._elements e₁ e₂ i hl₁ hl₂

theorem set_data_loop_ok (idx : PySet) :
    ∀ (data : List (PyVal × R)) (init : List R),
    init.length = idx.size →
    (∀ q ∈ data, q.1 ∈ idx._elements) →
    (data.map Prod.fst).Nodup →
    ∃ vals : List R,
      data.foldlM (fun values kv => do
          let pos ← idx.position kv.1
          pure (values.set pos kv.2)) init = Except.ok vals
      ∧ vals.length = init.length
      ∧ (∀ q ∈ data, ∃ i, idx.position q.1 = Except.ok i ∧ vals.get? i = some q.2)
      ∧ (∀ i : Nat, (∀ q ∈ data, idx.position q.1 ≠ Except.ok i) →
          vals.get? i = init.get? i) := by
  intro data
  induction data with
  | nil =>
    intro init _ _ _
    exact ⟨init, rfl, rfl, by simp, fun i _ => rfl⟩
  | cons kv rest ih =>
    intro init hlen hall hnd
    obtain ⟨pos, hpos, hposlt⟩ :=
      position_ok_of_mem idx kv.1 (hall kv (List.mem_cons_self _ _))
    have hposlt' : pos < init.length := by rw [hlen]; exact hposlt
    have hrestall : ∀ q ∈ rest, q.1 ∈ idx._elements :=
      fun q hq => hall q (List.mem_cons_of_mem _ hq)
    have hndrest : (rest.map Prod.fst).Nodup := by
      rw [List.map_cons, List.nodup_cons] at hnd
      exact hnd.2
    have hknotin : kv.1 ∉ rest.map Prod.fst := by
      rw [List.map_cons, List.nodup_cons] at hnd
      exact hnd.1
    obtain ⟨vals, hfold, hvlen, hrest, huntouched⟩ :=
      ih (init.set pos kv.2) (by rw [List.length_set]; exact hlen) hrestall hndrest
    have hrestne : ∀ q ∈ rest, idx.position q.1 ≠ Except.ok pos := by
      intro q hq hqpos
      have : q.1 = kv.1 := position_inj idx q.1 kv.1 pos hqpos hpos
      exact hknotin (this ▸ List.mem_map_of_mem Prod.fst hq)
    refine ⟨vals, ?_, by rw [hvlen, List.length_set], ?_, ?_⟩
    · rw [List.foldlM_cons, hpos, except_bind_ok, except_bind_pure]
      exact hfold
    · intro q hq
      rcases List.mem_cons.mp hq with hq1 | hq2
      · subst hq1
        refine ⟨pos, hpos, ?_⟩
        rw [huntouched pos hrestne]
        rw [List.get?_eq_getElem?]
        exact List.getElem?_set_self hposlt'
      · exact hrest q hq2
    · intro i hne
      have hner : ∀ q ∈ rest, idx.position q.1 ≠ Except.ok i :=
        fun q hq => hne q (List.mem_cons_of_mem _ hq)
      rw [huntouched i hner]
      have hipos : pos ≠ i := by
        intro heq
        exact hne kv (List.mem_cons_self _ _) (heq ▸ hpos)
      rw [List.get?_eq_getElem?, List.get?_eq_getElem?]
      exact List.getElem?_set_ne hipos

theorem set_data_loop_error (idx : PySet) :
    ∀ (data : List (PyVal × R)) (init : List R),
    (∃ q ∈ data, q.1 ∉ idx._elements) →
    ∃ m, data.foldlM (fun values kv => do
        let pos ← idx.position kv.1
        pure (values.set pos kv.2)) init = Except.error (PyError.keyError m) := by
  intro data
  induction data with
  | nil =>
    rintro init ⟨q, hq, -⟩
    cases hq
  | cons kv rest ih =>
    rintro init ⟨q, hq, hqnot⟩
    rcases List.mem_cons.mp hq with hq1 | hq2
    · subst hq1
      have hnone : lastIndexOf idx._elements q.1 = none := by
        cases hl : lastIndexOf idx._elements q.1 with
        | none => rfl
        | some j =>
          have hsome : (lastIndexOf idx._elements q.1).isSome = true := by
            rw [hl]; rfl
          exact absurd ((lastIndexOf_isSome_iff _ _).mp hsome) hqnot
      rw [List.foldlM_cons]
      have hperr : idx.position q.1
          = Except.error (PyError.keyError ("Element not in index " ++ idx._name)) := by
        rw [PySet.position, hnone]
      rw [hperr]
      exact ⟨_, rfl⟩
    · cases hl : lastIndexOf idx._elements kv.1 with
      | none =>
        rw [List.foldlM_cons]
        have hperr : idx.position kv.1
            = Except.error (PyError.keyError ("Element not in index " ++ idx._name)) := by
          rw [PySet.position, hl]
        rw [hperr]
        exact ⟨_, rfl⟩
      | some j =>
        rw [List.foldlM_cons]
        have hpok : idx.position kv.1 = Except.ok j := by
          rw [PySet.position, hl]
        rw [hpok, except_bind_ok, except_bind_pure]
        exact ih (init.set j kv.2) ⟨q, hq2, hqnot⟩

end SetDataLemmas

/-- Claim C9: `Parameter.set_data` is atomic on error.  If some key of
the data dict is not an element of the parameter's Index Set it raises
`KeyNotFound` (`KeyError`) and no updated parameter is produced (the
source assigns `self.value` only after the whole loop, so the stored
value is unchanged); if every key is an element, the stored value
becomes a dense vector of length `|index|` with each mapped value at its
element's position and zeros everywhere else. -/
theorem C9_set_data_atomic {R : Type} [CommRing R] (p : PyParam R)
    (data : List (PyVal × R)) (hnd : (data.map Prod.fst).Nodup) :
    ((∃ q ∈ data, q.1 ∉ p._set_index._elements) →
      ∃ m, PyParam.set_data p data = Except.error (PyError.keyError m))
    ∧ ((∀ q ∈ data, q.1 ∈ p._set_index._elements) →
      ∃ vals : List R, PyParam.set_data p data
          = Except.ok ⟨p._set_index, some vals⟩
        ∧ vals.length = p._set_index.size
        ∧ (∀ q ∈ data, ∃ i, p._set_index.position q.1 = Except.ok i
            ∧ vals.get? i = some q.2)
        ∧ (∀ i : Nat, i < p._set_index.size →
            (∀ q ∈ data, p._set_index.position q.1 ≠ Except.ok i) →
            vals.get? i = some (0 : R))) := by
  constructor
  · intro hmissing
    obtain ⟨m, hm⟩ := set_data_loop_error p._set_index data
      (List.replicate p._set_index._elements.length (0 : R)) hmissing
    refine ⟨m, ?_⟩
    rw [PyParam.set_data, set_data_values, hm]
    rfl
  · intro hall
    obtain ⟨vals, hfold, hvlen, hdata, huntouched⟩ :=
      set_data_loop_ok p._set_index data
        (List.replicate p._set_index._elements.length (0 : R))
        (by rw [List.length_replicate]; rfl) hall hnd
    refine ⟨vals, ?_, by rw [hvlen, List.length_replicate]; rfl, hdata, ?_⟩
    · rw [PyParam.set_data, set_data_values, hfold, except_bind_ok]
      rfl
    · intro i hi hne
      rw [huntouched i hne, List.get?_eq_getElem?, List.getElem?_replicate]
      rw [if_pos (show i < p._set_index._elements.length from hi)]

/-- Witness for C9: setting `\x7bW1: 10\x7d` on a parameter over
`['W1','W2']` writes 10 at position 0 and leaves position 1 zero;
including an unknown key raises KeyError. -/
theorem C9_set_data_atomic_witness :
    ((∃ q ∈ [(PyVal.str "Wx", (10 : ℤ))],
        q.1 ∉ exWarehouses._elements) →
      ∃ m, PyParam.set_data ⟨exWarehouses, none⟩ [(PyVal.str "Wx", (10 : ℤ))]
        = Except.error (PyError.keyError m))
    ∧ ((∀ q ∈ [(PyVal.str "Wx", (10 : ℤ))], q.1 ∈ exWarehouses._elements) →
      ∃ vals : List ℤ,
        PyParam.set_data ⟨exWarehouses, none⟩ [(PyVal.str "Wx", (10 : ℤ))]
          = Except.ok ⟨exWarehouses, some vals⟩
        ∧ vals.length = exWarehouses.size
        ∧ (∀ q ∈ [(PyVal.str "Wx", (10 : ℤ))], ∃ i,
            exWarehouses.position q.1 = Except.ok i ∧ vals.get? i = some q.2)
        ∧ (∀ i : Nat, i < exWarehouses.size →
            (∀ q ∈ [(PyVal.str "Wx", (10 : ℤ))],
              exWarehouses.position q.1 ≠ Except.ok i) →
            vals.get? i = some (0 : ℤ))) :=
  C9_set_data_atomic ⟨exWarehouses, none⟩ [(PyVal.str "Wx", (10 : ℤ))] (by decide)

theorem mapM_except_ok_of_forall {α β ε : Type} (f : α → Except ε β) :
    ∀ l : List α, (∀ x ∈ l, ∃ y, f x = .ok y) → ∃ ys, l.mapM f = Except.ok ys := by
  intro l
  induction l with
  | nil => exact fun _ => ⟨[], rfl⟩
  | cons x xs ih =>
    intro h
    obtain ⟨y, hy⟩ := h x (List.mem_cons_self _ _)
    obtain ⟨ys, hys⟩ := ih (fun a ha => h a (List.mem_cons_of_mem _ ha))
    refine ⟨y :: ys, ?_⟩
    rw [mapM_except_cons, hy, hys]

theorem mapM_except_error_kind {α β : Type} (f : α → Except PyError β) :
    ∀ l : List α,
    (∀ x ∈ l, (∃ y, f x = .ok y) ∨ ∃ m, f x = .error (PyError.keyError m)) →
    (∃ x ∈ l, ∀ y, f x ≠ .ok y) →
    ∃ m, l.mapM f = Except.error (PyError.keyError m) := by
  intro l
  induction l with
  | nil =>
    rintro _ ⟨x, hx, -⟩
    cases hx
  | cons x xs ih =>
    rintro hkind ⟨z, hz, hzne⟩
    rcases hkind x (List.mem_cons_self _ _) with ⟨y, hy⟩ | ⟨m, hm⟩
    · have hztail : z ∈ xs := by
        rcases List.mem_cons.mp hz with hz1 | hz2
        · subst hz1
          exact absurd hy (hzne y)
        · exact hz2
      obtain ⟨m, hm⟩ := ih (fun a ha => hkind a (List.mem_cons_of_mem _ ha))
        ⟨z, hztail, hzne⟩
      rw [mapM_except_cons, hy, hm]
      exact ⟨m, rfl⟩
    · rw [mapM_except_cons, hm]
      exact ⟨m, rfl⟩

/-- Claim C3: for every compound target Index Set, every source
Parameter with a set value, and every list of source positions (resolved
to `ps`, with every element's sub-key extractable, recorded by `hkeys`),
`expand` returns a parameter over the target whose value vector has
length `|target_index|` and whose entry at each target position `i` is
the source value at `position(sub-key of target element i)`; it fails
with `KeyNotFound` (`KeyError`) when some target sub-key is absent from
the source index, and with `NotCompoundError` (`ValueError`) when the
target index is not compound. -/
theorem C3_expand_broadcast {R : Type} [CommRing R] (p : PyParam R) (target : PySet)
    (positions : List PyKey) (ps : List Int) (keys : List PyVal) (v : List R)
    (hres : positions.mapM target.resolve_position = Except.ok ps)
    (hkeys : target._elements.mapM (extractKey ps) = Except.ok keys)
    (hval : p.value = some v)
    (hvlen : v.length = p._set_index.size) :
    (target._is_compound = true →
      (∀ k ∈ keys, k ∈ p._set_index._elements) →
      ∃ out : List R, PyParam.expand p target positions = Except.ok ⟨target, some out⟩
        ∧ out.length = target.size
        ∧ (∀ i : Nat, i < target.size → ∃ (k : PyVal) (srcpos : Nat),
            keys.get? i = some k
            ∧ p._set_index.position k = Except.ok srcpos
            ∧ out.get? i = v.get? srcpos))
    ∧ (target._is_compound = true →
        (∃ k ∈ keys, k ∉ p._set_index._elements) →
        ∃ m, PyParam.expand p target positions
          = Except.error (PyError.keyError m))
    ∧ (target._is_compound = false →
        PyParam.expand p target positions
          = Except.error (PyError.valueError
              "Target index must be a compound (cross-product) index")) := by
  have hklen : keys.length = target._elements.length :=
    mapM_except_ok_length (extractKey ps) target._elements keys hkeys
  -- the per-element loop body with positions already resolved to `ps`
  set f : PyVal → Except PyError R := fun elem => do
    let key ← extractKey ps elem
    let src_pos ← p._set_index.position key
    match p.value with
    | some v' =>
      match v'.get? src_pos with
      | some x => pure x
      | none => throw (.indexError "index out of bounds for parameter value")
    | none => throw (.typeError "parameter value is not set")
    with hf
  have hexpand : ∀ (_ : target._is_compound = true),
      PyParam.expand p target positions
        = target._elements.mapM f >>= fun result_values =>
            pure ⟨target, some result_values⟩ := by
    intro hc
    rw [PyParam.expand]
    rw [if_neg (by rw [hc]; exact fun h => Bool.noConfusion h)]
    rw [except_bind_pure, hres, except_bind_ok]
  -- pointwise evaluation of `f` for an element whose key is present
  have hfeval : ∀ (i : Nat) (elem : PyVal), target._elements.get? i = some elem →
      ∃ k, keys.get? i = some k ∧ extractKey ps elem = Except.ok k
        ∧ (k ∈ p._set_index._elements →
            ∃ (srcpos : Nat) (x : R), p._set_index.position k = Except.ok srcpos
              ∧ v.get? srcpos = some x ∧ f elem = Except.ok x)
        ∧ (k ∉ p._set_index._elements → ∃ m, f elem = Except.error (PyError.keyError m)) := by
    intro i elem hel
    obtain ⟨k, hki, hkex⟩ := mapM_except_ok_get (extractKey ps) target._elements keys hkeys i elem hel
    refine ⟨k, hki, hkex, ?_, ?_⟩
    · intro hkmem
      obtain ⟨srcpos, hsrc, hsrclt⟩ := position_ok_of_mem p._set_index k hkmem
      have hsrclt' : srcpos < v.length := by rw [hvlen]; exact hsrclt
      have hx : v.get? srcpos = some (v.get ⟨srcpos, hsrclt'⟩) :=
        List.get?_eq_get hsrclt'
      refine ⟨srcpos, v.get ⟨srcpos, hsrclt'⟩, hsrc, hx, ?_⟩
      rw [hf]
      show (do
        let key ← extractKey ps elem
        let src_pos ← p._set_index.position key
        match p.value with
        | some v' =>
          match v'.get? src_pos with
          | some x => pure x
          | none => throw (PyError.indexError "index out of bounds for parameter value")
        | none => throw (PyError.typeError "parameter value is not set"))
          = Except.ok (v.get ⟨srcpos, hsrclt'⟩)
      rw [hkex, except_bind_ok, hsrc, except_bind_ok]
      simp only [hval]
      rw [hx]
      rfl
    · intro hknot
      have hnone : lastIndexOf p._set_index._elements k = none := by
        cases hl : lastIndexOf p._set_index._elements k with
        | none => rfl
        | some j =>
          have hsome : (lastIndexOf p._set_index._elements k).isSome = true := by
            rw [hl]; rfl
          exact absurd ((lastIndexOf_isSome_iff _ _).mp hsome) hknot
      refine ⟨"Element not in index " ++ p._set_index._name, ?_⟩
      rw [hf]
      show (do
        let key ← extractKey ps elem
        let src_pos ← p._set_index.position key
        match p.value with
        | some v' =>
          match v'.get? src_pos with
          | some x => pure x
          | none => throw (PyError.indexError "index out of bounds for parameter value")
        | none => throw (PyError.typeError "parameter value is not set"))
          = Except.error (PyError.keyError ("Element not in index " ++ p._set_index._name))
      rw [hkex, except_bind_ok, PySet.position, hnone]
      rfl
  refine ⟨?_, ?_, ?_⟩
  · intro hc hall
    have hfok : ∀ elem ∈ target._elements, ∃ y, f elem = Except.ok y := by
      intro elem helem
      obtain ⟨i, hi⟩ := List.get?_of_mem helem
      obtain ⟨k, hki, -, hpres, -⟩ := hfeval i elem hi
      obtain ⟨srcpos, x, -, -, hfx⟩ := hpres (hall k (List.get?_mem hki))
      exact ⟨x, hfx⟩
    obtain ⟨out, hout⟩ := mapM_except_ok_of_forall f target._elements hfok
    have holen : out.length = target._elements.length :=
      mapM_except_ok_length f target._elements out hout
    refine ⟨out, ?_, holen, ?_⟩
    · rw [hexpand hc, hout, except_bind_ok]
      rfl
    · intro i hi
      have hi' : i < target._elements.length := hi
      have hel : target._elements.get? i
          = some (target._elements.get ⟨i, hi'⟩) := List.get?_eq_get hi'
      obtain ⟨k, hki, -, hpres, -⟩ := hfeval i _ hel
      obtain ⟨srcpos, x, hsrc, hvx, hfx⟩ := hpres (hall k (List.get?_mem hki))
      obtain ⟨y, hyi, hfy⟩ := mapM_except_ok_get f target._elements out hout i _ hel
      rw [hfx] at hfy
      cases hfy
      exact ⟨k, srcpos, hki, hsrc, by rw [hyi, hvx]⟩
  · intro hc hmiss
    obtain ⟨k₀, hk₀mem, hk₀not⟩ := hmiss
    obtain ⟨i, hik⟩ := List.get?_of_mem hk₀mem
    have hi' : i < target._elements.length := by
      rw [← hklen]
      exact (List.get?_eq_some.mp hik).1
    have hel : target._elements.get? i
        = some (target._elements.get ⟨i, hi'⟩) := List.get?_eq_get hi'
    obtain ⟨k, hki, -, -, hmissf⟩ := hfeval i _ hel
    have hkk : k = k₀ := by
      rw [hik] at hki
      cases hki
      rfl
    subst hkk
    obtain ⟨m, hfm⟩ := hmissf hk₀not
    have hkind : ∀ elem ∈ target._elements,
        (∃ y, f elem = .ok y) ∨ ∃ m', f elem = .error (PyError.keyError m') := by
      intro elem helem
      obtain ⟨j, hj⟩ := List.get?_of_mem helem
      obtain ⟨kj, hkj, -, hpresj, hmissj⟩ := hfeval j elem hj
      by_cases hjm : kj ∈ p._set_index._elements
      · obtain ⟨srcpos, x, -, -, hfx⟩ := hpresj hjm
        exact Or.inl ⟨x, hfx⟩
      · exact Or.inr (hmissj hjm)
    obtain ⟨m', hm'⟩ := mapM_except_error_kind f target._elements hkind
      ⟨target._elements.get ⟨i, hi'⟩, List.get?_mem hel, by rw [hfm]; intro y h; cases h⟩
    refine ⟨m', ?_⟩
    rw [hexpand hc, hm']
    rfl
  · intro hc
    rw [PyParam.expand, if_pos hc]
    rfl

/-- Witness for C3 at the spec scenario: expanding the 1-D value
`\x7bW1: 10, W2: 20\x7d` over `origin` onto the 4-element routes index. -/
theorem C3_expand_broadcast_witness :
    PySet._is_compound exRoutes = true
    ∧ (∀ k ∈ [PyVal.str "W1", PyVal.str "W1", PyVal.str "W2", PyVal.str "W2"],
        k ∈ exWarehouses._elements)
    ∧ ∃ out : List ℤ,
        PyParam.expand ⟨exWarehouses, some [(10 : ℤ), 20]⟩ exRoutes [PyKey.int 0]
          = Except.ok ⟨exRoutes, some out⟩
        ∧ out.length = exRoutes.size
        ∧ (∀ i : Nat, i < exRoutes.size → ∃ (k : PyVal) (srcpos : Nat),
            ([PyVal.str "W1", PyVal.str "W1", PyVal.str "W2", PyVal.str "W2"] :
                List PyVal).get? i = some k
            ∧ exWarehouses.position k = Except.ok srcpos
            ∧ out.get? i = ([(10 : ℤ), 20] : List ℤ).get? srcpos) :=
  ⟨by decide, by decide,
    (C3_expand_broadcast ⟨exWarehouses, some [(10 : ℤ), 20]⟩ exRoutes [PyKey.int 0]
      [0] [PyVal.str "W1", PyVal.str "W1", PyVal.str "W2", PyVal.str "W2"]
      [(10 : ℤ), 20] (by decide) (by decide) rfl (by decide)).1 (by decide) (by decide)⟩

section WhereLemmas

variable {R : Type} [CommRing R]

theorem zip_map_mapM (g : PyVal → R) (pos : Int) (allowed : List PyVal) :
    ∀ l : List PyVal, (∀ e ∈ l, ∃ w, pySubscript e pos = Except.ok w) →
    (l.zip (l.map g)).mapM (fun em => do
        let v ← pySubscript em.1 pos
        pure (if v ∈ allowed then em.2 else (0 : R)))
      = Except.ok (l.map (fun e => if subPass pos allowed e then g e else 0)) := by
  intro l
  induction l with
  | nil => intro _; rfl
  | cons x xs ih =>
    intro h
    obtain ⟨w, hw⟩ := h x (List.mem_cons_self _ _)
    rw [List.map_cons, List.zip_cons_cons, mapM_except_cons]
    have hitem : (do
        let v ← pySubscript x pos
        pure (if v ∈ allowed then g x else (0 : R)) : Except PyError R)
        = Except.ok (if w ∈ allowed then g x else 0) := by
      rw [hw, except_bind_ok]
      rfl
    rw [hitem, ih (fun e he => h e (List.mem_cons_of_mem _ he))]
    rw [List.map_cons]
    have hhead : (if w ∈ allowed then g x else (0 : R))
        = if subPass pos allowed x then g x else 0 := by
      simp only [subPass, hw]
      by_cases hwa : w ∈ allowed
      · rw [if_pos hwa, if_pos (decide_eq_true hwa)]
      · rw [if_neg hwa, if_neg (fun h => hwa (of_decide_eq_true h))]
    rw [hhead]

theorem applyKwFilter_map (idx : PySet) (g : PyVal → R)
    (kw : String × PyObj) (pos : Int)
    (hpos : idx.resolve_position (PyKey.str kw.1) = Except.ok pos)
    (hsub : ∀ e ∈ idx._elements, ∃ w, pySubscript e pos = Except.ok w) :
    applyKwFilter idx (idx._elements.map g) kw
      = Except.ok (idx._elements.map (fun e =>
          if specKwPass idx e kw then g e else 0)) := by
  rw [applyKwFilter, hpos, except_bind_ok]
  rw [zip_map_mapM g pos kw.2.toAllowed idx._elements hsub]
  congr 1
  apply List.map_congr_left
  intro e _
  have hkw : specKwPass idx e kw = subPass pos kw.2.toAllowed e := by
    rw [specKwPass, hpos]
  rw [hkw]

theorem kwargs_fold_ok (idx : PySet) :
    ∀ (kwargs : List (String × PyObj)) (g : PyVal → R),
    (∀ kw ∈ kwargs, ∃ pos : Int,
      idx.resolve_position (PyKey.str kw.1) = Except.ok pos
      ∧ ∀ e ∈ idx._elements, ∃ w, pySubscript e pos = Except.ok w) →
    kwargs.foldlM (applyKwFilter idx) (idx._elements.map g)
      = Except.ok (idx._elements.map (fun e =>
          if kwargs.all (fun kw => specKwPass idx e kw) then g e else 0)) := by
  intro kwargs
  induction kwargs with
  | nil =>
    intro g _
    rw [List.foldlM_nil]
    show Except.ok (idx._elements.map g) = _
    congr 1
  | cons kw rest ih =>
    intro g h
    obtain ⟨pos, hpos, hsub⟩ := h kw (List.mem_cons_self _ _)
    rw [List.foldlM_cons, applyKwFilter_map idx g kw pos hpos hsub, except_bind_ok]
    rw [ih (fun e => if specKwPass idx e kw then g e else 0)
      (fun kw' hkw' => h kw' (List.mem_cons_of_mem _ hkw'))]
    congr 1
    apply List.map_congr_left
    intro e _
    rw [List.all_cons]
    by_cases h1 : specKwPass idx e kw = true
    · rw [if_pos h1, h1, Bool.true_and]
    · have h1' : specKwPass idx e kw = false := by
        revert h1
        cases specKwPass idx e kw <;> simp
      rw [if_neg h1, ite_self, h1', Bool.false_and]
      rw [if_neg (fun hh => Bool.noConfusion hh)]

end WhereLemmas

/-- Counterexample to claim C7 as stated: supplying only named-position
filters but no index is an invocation outside the claim's list of
malformed cases, yet it fails (with the missing-index error of the
keyword-filtering path), contradicting "no other invocation does". -/
theorem C7_where_errors_counterexample :
    build_where_mask (R := ℤ) none none [("x", PyObj.scalar (PyVal.str "a"))]
      = Except.error (PyError.valueError
          "index parameter is required when using keyword filtering") := by
  rfl

/-- Claim C7, amended: supplying both an explicit condition and
named-position filters fails with `AmbiguousConditionError`; supplying
neither fails with `MissingConditionError`; a callable condition without
an index fails with `MissingIndexError`, and named-position filters
without an index also fail with `MissingIndexError`; an explicit array
whose length differs from `|index|` when an index is given fails with
`ShapeMismatchError`, while without an index the array is used as-is
regardless of length; a matching array and a callable with an index
succeed. -/
theorem C7_where_errors {R : Type} [CommRing R] :
    (∀ (c : WhereCond R) (index : Option PySet) (kwargs : List (String × PyObj)),
      kwargs ≠ [] →
      build_where_mask (some c) index kwargs
        = Except.error (.valueError "Cannot specify both cond and keyword arguments"))
    ∧ (∀ index : Option PySet,
        build_where_mask (R := R) none index []
          = Except.error (.valueError "Must specify either cond or keyword arguments"))
    ∧ (∀ f : PyVal → Bool,
        build_where_mask (R := R) (some (.func f)) none []
          = Except.error (.valueError "index parameter is required when cond is a callable"))
    ∧ (∀ kwargs : List (String × PyObj), kwargs ≠ [] →
        build_where_mask (R := R) none none kwargs
          = Except.error (.valueError "index parameter is required when using keyword filtering"))
    ∧ (∀ (a : List R) (idx : PySet), a.length ≠ idx.size →
        build_where_mask (some (.arr a)) (some idx) []
          = Except.error (.valueError "Condition array does not have the expected shape"))
    ∧ (∀ (a : List R) (idx : PySet), a.length = idx.size →
        build_where_mask (some (.arr a)) (some idx) [] = Except.ok a)
    ∧ (∀ a : List R, build_where_mask (some (.arr a)) none [] = Except.ok a)
    ∧ (∀ (f : PyVal → Bool) (idx : PySet),
        build_where_mask (R := R) (some (.func f)) (some idx) []
          = Except.ok (idx._elements.map (fun e => if f e then (1 : R) else 0))) := by
  refine ⟨?_, ?_, ?_, ?_, ?_, ?_, ?_, ?_⟩
  · intro c index kwargs hk
    cases c with
    | arr a =>
      rw [show build_where_mask (some (WhereCond.arr a)) index kwargs
          = if (some (WhereCond.arr a)).isSome ∧ kwargs ≠ [] then
              Except.error (PyError.valueError "Cannot specify both cond and keyword arguments")
            else whereArr a index from rfl]
      rw [if_pos ⟨rfl, hk⟩]
    | func f =>
      rw [show build_where_mask (some (WhereCond.func f)) index kwargs
          = if (some (WhereCond.func f)).isSome ∧ kwargs ≠ [] then
              Except.error (PyError.valueError "Cannot specify both cond and keyword arguments")
            else whereFunc f index from rfl]
      rw [if_pos ⟨rfl, hk⟩]
  · intro index
    rfl
  · intro f
    rfl
  · intro kwargs hk
    rw [show build_where_mask (R := R) none none kwargs
        = if (none : Option (WhereCond R)).isSome ∧ kwargs ≠ [] then
            Except.error (PyError.valueError "Cannot specify both cond and keyword arguments")
          else if kwargs ≠ [] then whereKwargs (R := R) none kwargs
            else Except.error (PyError.valueError "Must specify either cond or keyword arguments")
      from rfl]
    rw [if_neg (fun h => Bool.noConfusion h.1), if_pos hk]
    rfl
  · intro a idx ha
    rw [show build_where_mask (some (WhereCond.arr a)) (some idx) []
        = whereArr a (some idx) from rfl]
    rw [show whereArr a (some idx)
        = if a.length ≠ idx.size then
            Except.error (PyError.valueError "Condition array does not have the expected shape")
          else Except.ok a from rfl]
    rw [if_pos ha]
  · intro a idx ha
    rw [show build_where_mask (some (WhereCond.arr a)) (some idx) []
        = whereArr a (some idx) from rfl]
    rw [show whereArr a (some idx)
        = if a.length ≠ idx.size then
            Except.error (PyError.valueError "Condition array does not have the expected shape")
          else Except.ok a from rfl]
    rw [if_neg (fun h => h ha)]
  · intro a
    rfl
  · intro f idx
    rfl

/-- Witness for C7 (amended) at concrete invocations over the
warehouses index. -/
theorem C7_where_errors_witness :
    build_where_mask (some (WhereCond.arr [(1 : ℤ)])) (some exWarehouses)
        [("origin", PyObj.scalar (PyVal.str "W1"))]
      = Except.error (.valueError "Cannot specify both cond and keyword arguments")
    ∧ build_where_mask (R := ℤ) none (some exWarehouses) []
      = Except.error (.valueError "Must specify either cond or keyword arguments")
    ∧ build_where_mask (some (WhereCond.arr [(1 : ℤ)])) (some exWarehouses) []
      = Except.error (.valueError "Condition array does not have the expected shape")
    ∧ build_where_mask (some (WhereCond.arr [(1 : ℤ), 2, 3])) none []
      = Except.ok [(1 : ℤ), 2, 3] :=
  ⟨(C7_where_errors (R := ℤ)).1 (WhereCond.arr [(1 : ℤ)]) (some exWarehouses)
      [("origin", PyObj.scalar (PyVal.str "W1"))] (by decide),
    (C7_where_errors (R := ℤ)).2.1 (some exWarehouses),
    (C7_where_errors (R := ℤ)).2.2.2.2.1 [(1 : ℤ)] exWarehouses (by decide),
    (C7_where_errors (R := ℤ)).2.2.2.2.2.2.1 [(1 : ℤ), 2, 3]⟩

/-- Claim C8: for every compound Index Set and non-empty collection of
named-position filters (each a single allowed value or a collection of
allowed values) whose names resolve and whose resolved positions are
valid for every element, the mask returned by `where` has length
`|index|` and its entry for element `e` is 1.0 iff for every supplied
filter the value of `e` at the filter's resolved position lies in that
filter's allowed set (filters compose by logical AND across positions),
and 0.0 otherwise; named filtering on a non-compound index fails with
`NotCompoundError`. -/
theorem C8_where_named_filters {R : Type} [CommRing R] (idx : PySet)
    (kwargs : List (String × PyObj)) (hk : kwargs ≠ [])
    (hres : ∀ kw ∈ kwargs, ∃ pos : Int,
      idx.resolve_position (PyKey.str kw.1) = Except.ok pos
      ∧ ∀ e ∈ idx._elements, ∃ w, pySubscript e pos = Except.ok w) :
    (idx._is_compound = true →
      build_where_mask (R := R) none (some idx) kwargs
        = Except.ok (idx._elements.map (fun e =>
            if kwargs.all (fun kw => specKwPass idx e kw) then (1 : R) else 0))
      ∧ (idx._elements.map (fun e =>
            if kwargs.all (fun kw => specKwPass idx e kw) then (1 : R) else 0)).length
          = idx.size)
    ∧ (idx._is_compound = false →
        build_where_mask (R := R) none (some idx) kwargs
          = Except.error (.valueError ("Keyword filtering requires a compound index (tuples). Set "
              ++ idx._name ++ " contains simple elements."))) := by
  have hbase : build_where_mask (R := R) none (some idx) kwargs
      = whereKwargsIdx idx kwargs := by
    rw [show build_where_mask (R := R) none (some idx) kwargs
        = if (none : Option (WhereCond R)).isSome ∧ kwargs ≠ [] then
            Except.error (PyError.valueError "Cannot specify both cond and keyword arguments")
          else if kwargs ≠ [] then whereKwargs (R := R) (some idx) kwargs
            else Except.error (PyError.valueError "Must specify either cond or keyword arguments")
      from rfl]
    rw [if_neg (fun h => Bool.noConfusion h.1), if_pos hk]
    rfl
  constructor
  · intro hcomp
    have hrepl : List.replicate idx.size (1 : R)
        = idx._elements.map (fun _ => (1 : R)) := by
      rw [List.map_const']
      rfl
    have hfold := kwargs_fold_ok idx kwargs (fun _ => (1 : R)) hres
    refine ⟨?_, ?_⟩
    · rw [hbase, whereKwargsIdx,
        if_neg (by rw [hcomp]; exact fun h => Bool.noConfusion h), hrepl, hfold]
    · rw [List.length_map]
      rfl
  · intro hcomp
    rw [hbase, whereKwargsIdx, if_pos hcomp]

/-- Witness for C8 at the routes index filtered by `origin='W1'`. -/
theorem C8_where_named_filters_witness :
    build_where_mask (R := ℤ) none (some exRoutes)
        [("origin", PyObj.scalar (PyVal.str "W1"))]
      = Except.ok (exRoutes._elements.map (fun e =>
          if [("origin", PyObj.scalar (PyVal.str "W1"))].all
              (fun kw => specKwPass exRoutes e kw) then (1 : ℤ) else 0))
    ∧ (exRoutes._elements.map (fun e =>
          if [("origin", PyObj.scalar (PyVal.str "W1"))].all
              (fun kw => specKwPass exRoutes e kw) then (1 : ℤ) else 0)).length
        = exRoutes.size :=
  (C8_where_named_filters exRoutes [("origin", PyObj.scalar (PyVal.str "W1"))]
    (by decide)
    (by
      intro kw hkw
      rw [List.mem_singleton] at hkw
      subst hkw
      refine ⟨0, by decide, ?_⟩
      intro e he
      fin_cases he <;> exact ⟨_, rfl⟩)).1 (by decide)
